import Mathlib

/-!
Verification of the table-driven literature-review pipeline of
src/src/modules/literatureReviewService.ts (class LiteratureReviewService).

Strings are modelled as lists of characters (abbrev Str), JavaScript string
operations (global regex replace, trim, split, slice) as structurally
recursive functions over them.  External collaborators (the marked markdown
renderer, the LLM call inside fillTableForSinglePDF) enter as explicit
function / oracle parameters; everything else is translated directly from
the TypeScript source.
-/

namespace AIButler

abbrev Str := List Char

/-- Shorthand turning a string literal into its character list. -/
def str (s : String) : Str := s.data

/-- Boolean prefix test on character lists (JS String.startsWith / the
anchored part of a regex match). -/
def isPre : Str → Str → Bool
  | [], _ => true
  | _ :: _, [] => false
  | a :: p, b :: s => a = b && isPre p s

/-- Does p occur as a (contiguous) substring of s? -/
def occursSub (p : Str) : Str → Bool
  | [] => isPre p []
  | c :: cs => isPre p (c :: cs) || occursSub p cs

/-- JS whitespace characters relevant to the modelled strings (String.trim,
regex \s).  The model restricts to the ASCII whitespace actually occurring
in the data. -/
def isWs (c : Char) : Bool :=
  c = ' ' || c = '\t' || c = '\n' || c = '\r'

/-- JS String.trim: strip whitespace from both ends. -/
def trimChars (s : Str) : Str :=
  ((s.dropWhile isWs).reverse.dropWhile isWs).reverse

/-- Fueled engine for a global, non-overlapping, left-to-right literal
replacement: the semantics of JS s.replace(/pat/g, rep) for a literal
pattern.  Fuel bounds the number of scan steps. -/
def replaceAllF (p r : Str) : Nat → Str → Str
  | 0, s => s
  | _ + 1, [] => []
  | f + 1, c :: cs =>
      if isPre p (c :: cs) then r ++ replaceAllF p r f (List.drop p.length (c :: cs))
      else c :: replaceAllF p r f cs

/-- JS s.replace(/p/g, r) for a literal pattern p. -/
def replaceAll (p r s : Str) : Str := replaceAllF p r s.length s

/-- Character-wise expansion map (used to restate the escape passes). -/
def encAll (f : Char → Str) : Str → Str
  | [] => []
  | c :: cs => f c ++ encAll f cs

/- ------------------------------------------------------------------
HTML escaping in saveTableNote (literatureReviewService.ts lines 324-327):
tableContent.replace(/&/g,"&amp;").replace(/</g,"&lt;").replace(/>/g,"&gt;")
------------------------------------------------------------------ -/

/-- Character-list spellings of the entity literals (the plain string
forms appear in the doc comments of the definitions using them). -/
def ampEnt : Str := ['&', 'a', 'm', 'p', ';']

def ltEnt : Str := ['&', 'l', 't', ';']

def gtEnt : Str := ['&', 'g', 't', ';']

def quotEnt : Str := ['&', 'q', 'u', 'o', 't', ';']

/-- The escape applied by saveTableNote before embedding the raw markdown
in the hidden data-ai-table-raw element: the three sequential global
replaces of & to amp, then left angle to lt, then right angle to gt
entities, in source order. -/
def escapeHtml (s : Str) : Str :=
  replaceAll ['>'] gtEnt (replaceAll ['<'] ltEnt (replaceAll ['&'] ampEnt s))

/-- The entity unescape applied by findTableNote to the extracted raw
capture: four sequential global replaces, amp entity first, then lt, gt
and quot entities. -/
def unescapeHtml (s : Str) : Str :=
  replaceAll quotEnt ['"']
    (replaceAll gtEnt ['>'] (replaceAll ltEnt ['<'] (replaceAll ampEnt ['&'] s)))

/-- Per-character form of the escape. -/
def encFull (c : Char) : Str :=
  if c = '&' then ampEnt
  else if c = '<' then ltEnt
  else if c = '>' then gtEnt else [c]

/-- Per-character residue after the amp unescape pass. -/
def encLtGt (c : Char) : Str :=
  if c = '<' then ltEnt else if c = '>' then gtEnt else [c]

/-- Per-character residue after the lt unescape pass. -/
def encGt (c : Char) : Str :=
  if c = '>' then gtEnt else [c]

/-- Intermediate encoder: only ampersands escaped. -/
def encA (c : Char) : Str := if c = '&' then ampEnt else [c]

/-- Intermediate encoder: ampersands and left angle brackets escaped. -/
def encAL (c : Char) : Str := if c = '&' then ampEnt else if c = '<' then ltEnt else [c]

/- ------------------------------------------------------------------
The table-note cache: findTableNote / saveTableNote
(literatureReviewService.ts lines 233-341).
------------------------------------------------------------------ -/

/-- TABLE_NOTE_TAG = "AI-Table" (line 33). -/
def TABLE_NOTE_TAG : Str := str "AI-Table"

/-- A Zotero child note: its tag list and its HTML content. -/
structure Note where
  tags : List Str
  content : Str
deriving DecidableEq

/-- The marker attribute scanned for by findTableNote. -/
def attrMark : Str := str "data-ai-table-raw"

/-- Split at the first right angle bracket: returns the segment before it
and the rest after it (the semantics of a greedy char-class avoiding that
bracket followed by the literal bracket). -/
def firstGt : Str → Option (Str × Str)
  | [] => none
  | c :: cs =>
      if c = '>' then some ([], cs)
      else
        match firstGt cs with
        | some (seg, rest) => some (c :: seg, rest)
        | none => none

/-- Scan for the first closing div or pre tag; returns the capture before
it and the rest after it (the lazy capture of the raw-extraction regex). -/
def findCloseTag : Str → Option (Str × Str)
  | [] => none
  | c :: cs =>
      if isPre (str "</div>") (c :: cs) || isPre (str "</pre>") (c :: cs) then
        some ([], List.drop 5 cs)
      else
        match findCloseTag cs with
        | some (cap, rest) => some (c :: cap, rest)
        | none => none

/-- Try to match the opening tag of the raw-extraction regex at this
position: a div or pre tag whose attribute segment (the characters
before the first closing angle bracket) mentions data-ai-table-raw.
Returns the text after the opening tag. -/
def tryOpen (cs : Str) : Option Str :=
  if isPre (str "<div") cs || isPre (str "<pre") cs then
    match firstGt (List.drop 4 cs) with
    | some (seg, rest) => if occursSub attrMark seg then some rest else none
    | none => none
  else none

/-- Full match of the raw-extraction regex at this position: opening tag,
then the lazy capture up to the first closing div or pre tag. -/
def tryFull (cs : Str) : Option Str :=
  match tryOpen cs with
  | some rest =>
      match findCloseTag rest with
      | some (cap, _) => some cap
      | none => none
  | none => none

/-- Leftmost match of the raw-extraction regex over the note content:
the capture group of noteContent.match of the div-or-pre
data-ai-table-raw pattern in findTableNote. -/
def extractRaw : Str → Option Str
  | [] => none
  | c :: cs =>
      match tryFull (c :: cs) with
      | some cap => some cap
      | none => extractRaw cs

/-- Legacy fallback of findTableNote: strip every complete HTML tag
(the global replace of angle-bracket tags with the empty string). -/
def stripHtmlTagsF : Nat → Str → Str
  | 0, s => s
  | _ + 1, [] => []
  | f + 1, c :: cs =>
      if c = '<' then
        match firstGt cs with
        | some (_, rest) => stripHtmlTagsF f rest
        | none => c :: stripHtmlTagsF f cs
      else c :: stripHtmlTagsF f cs

def stripHtmlTags (s : Str) : Str := stripHtmlTagsF s.length s

/-- Legacy branch of findTableNote (lines 257-259): strip tags, trim,
return the result when nonempty. -/
def legacyText (content : Str) : Option Str :=
  let t := trimChars (stripHtmlTags content)
  if t = [] then none else some t

/-- findTableNote (lines 233-266): scan the notes for the first one
carrying the AI-Table tag; extract the hidden raw markdown (unescaping
entities and trimming), falling back to stripped display text; the scan
stops at the first tagged note. -/
def findTableNote : List Note → Option Str
  | [] => none
  | n :: rest =>
      if TABLE_NOTE_TAG ∈ n.tags then
        match extractRaw n.content with
        | some cap =>
            if cap ≠ [] then
              let raw := trimChars (unescapeHtml cap)
              if raw = [] then none else some raw
            else legacyText n.content
        | none => legacyText n.content
      else findTableNote rest

/-- First note carrying the AI-Table tag (the lookup loop of
saveTableNote, lines 285-293). -/
def firstTagged (notes : List Note) : Option Note :=
  notes.find? (fun n => TABLE_NOTE_TAG ∈ n.tags)

/-- The note HTML assembled by saveTableNote (lines 328-331): header,
rendered display block, and the hidden escaped raw block.  The rendered
display form (marked.parse plus the style-stripping and LaTeX-to-math
rewrites of lines 303-321, all applied to the external renderer output)
enters as the render parameter. -/
def noteHtmlOf (render : Str → Str) (title tableContent : Str) : Str :=
  let itemTitle := (if title = [] then str "未知" else title).take 60
  str "<h2>📊 文献表格 - " ++ itemTitle ++ str "</h2>"
    ++ str "<div>" ++ render tableContent ++ str "</div>"
    ++ str "<div style=\"display:none\" data-ai-table-raw>"
    ++ escapeHtml tableContent ++ str "</div>"

/-- Creation branch of saveTableNote (lines 296-340): build the note HTML,
tag the fresh note with AI-Table and append it to the item's notes. -/
def createTableNote (render : Str → Str) (title : Str) (notes : List Note)
    (tableContent : Str) : List Note × Note :=
  let note : Note := ⟨[TABLE_NOTE_TAG], noteHtmlOf render title tableContent⟩
  (notes ++ [note], note)

/-- saveTableNote (lines 277-341): re-check findTableNote; when it yields
content, return the first tagged note unchanged (no overwrite); otherwise
create and append a fresh table note. -/
def saveTableNote (render : Str → Str) (title : Str) (notes : List Note)
    (tableContent : Str) : List Note × Note :=
  match findTableNote notes with
  | some _ =>
      match firstTagged notes with
      | some n => (notes, n)
      | none => createTableNote render title notes tableContent
  | none => createTableNote render title notes tableContent

/- ------------------------------------------------------------------
The parallel fill scheduler: fillTablesInParallel (lines 489-541).
------------------------------------------------------------------ -/

/-- A creator of a Zotero item.  Empty strings model absent (falsy)
fields. -/
structure Creator where
  lastName : Str
  name : Str
deriving DecidableEq

/-- The metadata of a parent item (a Source) the pipeline reads:
identifier, title, creators, date string and Zotero key. -/
structure SourceItem where
  id : Nat
  title : Str
  creators : List Creator
  date : Str
  zkey : Str
deriving DecidableEq

/-- Observable actions of the fill workers, tagged with the queue
position of the pair being processed: invoking the extractor
(fillTableForSinglePDF, hence the LLM), passing its result to
saveTableNote, writing a results-map entry, and the progress callback. -/
inductive FillEvent where
  | extract (i : Nat)
  | save (i : Nat) (t : Str)
  | record (i : Nat) (id : Nat) (t : Str)
  | progress (done total : Nat)
deriving DecidableEq

/-- JS Map.set: update in place when the key exists (keeping insertion
order), else append. -/
def mapSet (m : List (Nat × Str)) (k : Nat) (v : Str) : List (Nat × Str) :=
  if m.any (fun q => q.1 = k) then m.map (fun q => if q.1 = k then (k, v) else q)
  else m ++ [(k, v)]

/-- JS Map.get. -/
def mapGet (m : List (Nat × Str)) (k : Nat) : Option Str :=
  (m.find? (fun q => q.1 = k)).map (fun q => q.2)

/-- The placeholder recorded for a failed pair (line 526). -/
def fillFailText (msg : Str) : Str := str "(填表失败: " ++ msg ++ str ")"

/-- Shared scheduler state: the per-item note store, the results map, the
completed counter, and the trace of observable events. -/
structure FillState where
  store : Nat → List Note
  results : List (Nat × Str)
  completed : Nat
  events : List FillEvent

/-- The body of the worker loop for one pair (lines 503-530): check the
cache first; on a hit record the cached text without invoking the
extractor; on a miss invoke the extractor (modelled by the oracle,
indexed by queue position), save and record its result, or record the
placeholder when it throws; then bump the counter and report progress. -/
def fillStep (render : Str → Str) (oracle : Nat → Except Str Str) (total : Nat)
    (st : FillState) (i : Nat) (p : SourceItem) : FillState :=
  match findTableNote (st.store p.id) with
  | some t =>
      { st with
        results := mapSet st.results p.id t
        completed := st.completed + 1
        events := st.events ++ [.record i p.id t, .progress (st.completed + 1) total] }
  | none =>
      match oracle i with
      | .ok tbl =>
          { store := fun j =>
              if j = p.id then (saveTableNote render p.title (st.store p.id) tbl).1
              else st.store j
            results := mapSet st.results p.id tbl
            completed := st.completed + 1
            events := st.events ++ [.extract i, .save i tbl, .record i p.id tbl,
              .progress (st.completed + 1) total] }
      | .error msg =>
          { st with
            results := mapSet st.results p.id (fillFailText msg)
            completed := st.completed + 1
            events := st.events ++ [.extract i, .record i p.id (fillFailText msg),
              .progress (st.completed + 1) total] }

/-- The worker pool draining the shared queue in order.  In the
cooperative (single-threaded) host, each loop iteration owns its pair
exclusively; the model realises the canonical schedule in which the queue
is drained in order, which fixes the trace up to the interleaving-
independent properties proved below. -/
def runQueue (render : Str → Str) (oracle : Nat → Except Str Str) (total : Nat) :
    FillState → Nat → List SourceItem → FillState
  | st, _, [] => st
  | st, i, p :: ps => runQueue render oracle total (fillStep render oracle total st i p) (i + 1) ps

def initFillState (store0 : Nat → List Note) : FillState :=
  { store := store0, results := [], completed := 0, events := [] }

/-- fillTablesInParallel (lines 489-541): spawn min(concurrency, total)
workers over the shared queue; zero workers resolve immediately with the
empty results map, and at least one worker drains the whole queue. -/
def fillTablesInParallel (render : Str → Str) (oracle : Nat → Except Str Str)
    (items : List SourceItem) (concurrency : Int) (store0 : Nat → List Note) : FillState :=
  let total := items.length
  if (min concurrency (total : Int)).toNat = 0 then initFillState store0
  else runQueue render oracle total (initFillState store0) 0 items

/-- The scheduler state just before the pair at queue position i is
processed. -/
def runPrefix (render : Str → Str) (oracle : Nat → Except Str Str)
    (items : List SourceItem) (store0 : Nat → List Note) (i : Nat) : FillState :=
  runQueue render oracle items.length (initFillState store0) 0 (items.take i)

/-- The text a step writes into the results map: the cached text on a
hit, the extractor output on a successful miss, the placeholder on a
throw. -/
def stepOutcome (render : Str → Str) (oracle : Nat → Except Str Str)
    (st : FillState) (i : Nat) (p : SourceItem) : Str :=
  match findTableNote (st.store p.id) with
  | some t => t
  | none =>
      match oracle i with
      | .ok tbl => tbl
      | .error msg => fillFailText msg

/-- The (done, total) arguments of the progress callbacks, in call
order. -/
def progressSeq (st : FillState) : List (Nat × Nat) :=
  st.events.filterMap (fun e =>
    match e with
    | .progress d t => some (d, t)
    | _ => none)

/-- The queue position an event is tagged with (progress events carry
none). -/
def evIdx : FillEvent → Option Nat
  | .extract i => some i
  | .save i _ => some i
  | .record i _ _ => some i
  | .progress _ _ => none

/-- The events one step appends to the trace (read off fillStep). -/
def stepEventsOf (render : Str → Str) (oracle : Nat → Except Str Str)
    (st : FillState) (i : Nat) (p : SourceItem) (total : Nat) : List FillEvent :=
  match findTableNote (st.store p.id) with
  | some t => [.record i p.id t, .progress (st.completed + 1) total]
  | none =>
      match oracle i with
      | .ok tbl => [.extract i, .save i tbl, .record i p.id tbl,
          .progress (st.completed + 1) total]
      | .error msg => [.extract i, .record i p.id (fillFailText msg),
          .progress (st.completed + 1) total]

/- ------------------------------------------------------------------
Aggregation: aggregateTableContents (lines 353-477).
------------------------------------------------------------------ -/

/-- JS md.split of the newline character. -/
def splitNl : Str → List Str
  | [] => [[]]
  | c :: cs =>
      if c = '\n' then [] :: splitNl cs
      else
        match splitNl cs with
        | h :: t => (c :: h) :: t
        | [] => [[c]]

/-- JS array join of the newline character. -/
def joinNl : List Str → Str
  | [] => []
  | [l] => l
  | l :: ls => l ++ '\n' :: joinNl ls

/-- The character class of a table separator line body: whitespace,
dash, colon or pipe. -/
def sepClassChar (c : Char) : Bool :=
  isWs c || c = '-' || c = ':' || c = '|'

/-- The separator-line test of splitTableHeaderAndRows (line 386): a
pipe, then at least one character of the separator class, then a pipe at
the end. -/
def isSepLine (l : Str) : Bool :=
  match l with
  | '|' :: rest =>
      decide (2 ≤ rest.length) && (rest.getLast? = some '|')
        && rest.dropLast.all sepClassChar
  | _ => false

/-- The line-scanning loop of splitTableHeaderAndRows (lines 369-402),
with the headerDone flag and the three accumulators threaded through. -/
def splitTableGo (headerDone : Bool) (hAcc dAcc nAcc : List Str) :
    List Str → Str × Str × Str
  | [] => (joinNl hAcc.reverse, joinNl dAcc.reverse, joinNl nAcc.reverse)
  | line :: ls =>
      let trimmed := trimChars line
      if trimmed = [] then splitTableGo headerDone hAcc dAcc nAcc ls
      else if isPre ['|'] trimmed then
        if headerDone then splitTableGo headerDone hAcc (trimmed :: dAcc) nAcc ls
        else splitTableGo (isSepLine trimmed) (trimmed :: hAcc) dAcc nAcc ls
      else splitTableGo headerDone hAcc dAcc (trimmed :: nAcc) ls

/-- splitTableHeaderAndRows: (header, dataRows, nonTableContent). -/
def splitTableHeaderAndRows (md : Str) : Str × Str × Str :=
  splitTableGo false [] [] [] (splitNl md)

/-- Maximal whitespace-free tokens (the trim-then-split of a name on
whitespace runs). -/
def wsTokensGo (cur : Str) : Str → List Str
  | [] => if cur = [] then [] else [cur.reverse]
  | c :: cs =>
      if isWs c then
        if cur = [] then wsTokensGo [] cs else cur.reverse :: wsTokensGo [] cs
      else wsTokensGo (c :: cur) cs

/-- The last whitespace-delimited token of the trimmed text (the JS
trim-split-last idiom; empty input yields the empty token, as the JS
split of the empty string does). -/
def lastTokenOf (s : Str) : Str :=
  ((wsTokensGo [] (trimChars s)).getLast?).getD []

/-- extractAuthorSurname (lines 405-415): the first creator's structured
last name, else the last token of its free-text name, else the unknown
placeholder. -/
def extractAuthorSurname (item : SourceItem) : Str :=
  match item.creators with
  | [] => str "未知"
  | c :: _ =>
      if c.lastName ≠ [] then c.lastName
      else if c.name ≠ [] then lastTokenOf c.name
      else str "未知"

def digitPre3 (cs : Str) : Bool :=
  match cs with
  | a :: b :: d :: _ => a.isDigit && b.isDigit && d.isDigit
  | _ => false

/-- First run of four consecutive digits (the year regex). -/
def firstYear : Str → Option Str
  | [] => none
  | c :: cs =>
      if c.isDigit && digitPre3 cs then some (c :: cs.take 3)
      else firstYear cs

/-- extractYear (lines 418-422). -/
def extractYear (item : SourceItem) : Str :=
  match firstYear item.date with
  | some y => y
  | none => str "未知"

/-- The itemId-to-parentItem map of lines 361-366 (later registrations of
the same id overwrite earlier ones, hence the reversed lookup). -/
def itemLookup (items : List SourceItem) (k : Nat) : Option SourceItem :=
  items.reverse.find? (fun p => p.id = k)

/-- The per-source label (lines 432-443). -/
def entryLabel (items : List SourceItem) (index : Nat) (itemId : Nat) : Str :=
  match itemLookup items itemId with
  | some parentItem =>
      str "> **文献 " ++ str (Nat.repr index) ++ str "**: "
        ++ parentItem.title.take 80 ++ str " ("
        ++ extractAuthorSurname parentItem ++ str ", "
        ++ extractYear parentItem ++ str ")"
  | none => str "> **文献 " ++ str (Nat.repr index) ++ str "**"

/-- The aggregation loop (lines 424-467): capture the first nonempty
header, assemble each entry as label plus free text plus data rows,
falling back to the raw table text when no data rows were detected. -/
def aggregateGo (items : List SourceItem) :
    List (Nat × Str) → Nat → Str → List Str → Str × List Str
  | [], _, globalHeader, parts => (globalHeader, parts.reverse)
  | (itemId, tableContent) :: rest, index, globalHeader, parts =>
      let split := splitTableHeaderAndRows tableContent
      let globalHeader' :=
        if globalHeader = [] ∧ split.1 ≠ [] then split.1 else globalHeader
      let entry := entryLabel items index itemId
        ++ (if split.2.2 ≠ [] then '\n' :: split.2.2 else [])
        ++ (if split.2.1 ≠ [] then '\n' :: split.2.1 else '\n' :: tableContent)
      aggregateGo items rest (index + 1) globalHeader' (entry :: parts)

/-- The join of the per-source blocks (parts.join of line 474). -/
def joinSep : List Str → Str
  | [] => []
  | [p] => p
  | p :: ps => p ++ str "\n\n---\n\n" ++ joinSep ps

/-- The header-definition preamble (line 472). -/
def headerPreamble (globalHeader : Str) : Str :=
  if globalHeader ≠ [] then
    str "**表格结构定义（以下每篇文献的数据行均遵循此表头）：**\n\n"
      ++ globalHeader ++ str "\n\n---\n\n"
  else []

/-- aggregateTableContents (lines 353-477). -/
def aggregateTableContents (tableResults : List (Nat × Str))
    (items : List SourceItem) : Str :=
  let go := aggregateGo items tableResults 1 [] []
  headerPreamble go.1 ++ joinSep go.2

/-- Claim-side reading of the aggregation (C4): the global header is the
first nonempty header in iteration order, emitted once in the preamble,
and every block consists of label, free text and data rows only — the
per-table headers are omitted. -/
def firstHeaderOf (tableResults : List (Nat × Str)) : Str :=
  match tableResults.find? (fun q => (splitTableHeaderAndRows q.2).1 ≠ []) with
  | some q => (splitTableHeaderAndRows q.2).1
  | none => []

/-- Claim-side per-source block: label, free text, data rows; never the
header. -/
def claimBlock (items : List SourceItem) (index : Nat) (itemId : Nat)
    (tableContent : Str) : Str :=
  let split := splitTableHeaderAndRows tableContent
  entryLabel items index itemId
    ++ (if split.2.2 ≠ [] then '\n' :: split.2.2 else [])
    ++ '\n' :: split.2.1

def claimBlocks (items : List SourceItem) : List (Nat × Str) → Nat → List Str
  | [], _ => []
  | (itemId, tc) :: rest, index =>
      claimBlock items index itemId tc :: claimBlocks items rest (index + 1)

/-- Claim-side aggregation output. -/
def aggregateClaimed (tableResults : List (Nat × Str))
    (items : List SourceItem) : Str :=
  headerPreamble (firstHeaderOf tableResults)
    ++ joinSep (claimBlocks items tableResults 1)

/-- Occurrences of a pattern in a text (counted at every start
position). -/
def countOccur (p : Str) : Str → Nat
  | [] => 0
  | c :: cs => (if isPre p (c :: cs) then 1 else 0) + countOccur p cs

/- ------------------------------------------------------------------
Citation post-processing: postProcessCitations (lines 926-1047).
------------------------------------------------------------------ -/

/-- An entry of the citation index: the source item, its Zotero key and
the zotero select URI. -/
structure CiteVal where
  item : SourceItem
  key : Str
  uri : Str
deriving DecidableEq

def selectUri (zkey : Str) : Str := str "zotero://select/library/items/" ++ zkey

/-- The surname registered for one creator (lines 952-959): trimmed
structured last name, else the last token of the free-text name. -/
def creatorSurname (c : Creator) : Str :=
  if c.lastName ≠ [] then trimChars c.lastName
  else if c.name ≠ [] then lastTokenOf c.name
  else []

/-- JS toLowerCase (the model lowercases ASCII letters, matching the
surnames exercised here). -/
def lowerStr (s : Str) : Str := s.map Char.toLower

/-- Index lookup (JS Map.get on the surname-pipe-year key). -/
def authorYearGet (m : List (Str × CiteVal)) (k : Str) : Option CiteVal :=
  (m.find? (fun q => q.1 = k)).map (fun q => q.2)

/-- Registration of all creators of one item (lines 951-966): first
registration per key wins, later ones are ignored. -/
def mkIndexCreators (item : SourceItem) (year : Str) (uri : Str)
    (m : List (Str × CiteVal)) : List (Str × CiteVal) :=
  item.creators.foldl (fun m c =>
    let surname := creatorSurname c
    if surname = [] then m
    else
      let lookupKey := lowerStr surname ++ '|' :: year
      if (m.find? (fun q => q.1 = lookupKey)).isSome then m
      else m ++ [(lookupKey, ⟨item, item.zkey, uri⟩)]) m

/-- The citation index built by postProcessCitations (lines 935-967):
items with no extractable year or no creators are skipped. -/
def mkCitationIndex (items : List SourceItem) : List (Str × CiteVal) :=
  items.foldl (fun m item =>
    match firstYear item.date with
    | none => m
    | some year =>
        if item.creators = [] then m
        else mkIndexCreators item year (selectUri item.zkey) m) []

/-- Claim-side reading of the index construction (C6): the flat sequence
of (key, value) registration attempts, in source-then-creator order,
without deduplication. -/
def regSeqCreators (item : SourceItem) (year : Str) (uri : Str) : List (Str × CiteVal) :=
  item.creators.filterMap (fun c =>
    let surname := creatorSurname c
    if surname = [] then none
    else some (lowerStr surname ++ '|' :: year, ⟨item, item.zkey, uri⟩))

def regSeq : List SourceItem → List (Str × CiteVal)
  | [] => []
  | item :: rest =>
      (match firstYear item.date with
       | none => []
       | some year =>
           if item.creators = [] then []
           else regSeqCreators item year (selectUri item.zkey)) ++ regSeq rest

/-- Insert-if-absent on the assoc list (the guarded Map.set of line
963). -/
def insAbsent (m : List (Str × CiteVal)) (e : Str × CiteVal) : List (Str × CiteVal) :=
  if (m.find? (fun q => q.1 = e.1)).isSome then m else m ++ [e]

/- Pattern A: the parenthetical citation regex (lines 974-1011). -/

/-- A parenthesis (the characters excluded from the lazy inner run). -/
def isParen (c : Char) : Bool := c = '(' || c = ')'

/-- After the lazy run and its comma: optional whitespace, four digits,
an optional lowercase suffix, then the closing parenthesis.  Returns the
matched contribution to the capture and the text after the close. -/
def matchAfterComma (cs : Str) : Option (Str × Str) :=
  match cs with
  | ',' :: rest =>
      let ws := rest.takeWhile isWs
      match rest.dropWhile isWs with
      | d1 :: d2 :: d3 :: d4 :: rest3 =>
          if d1.isDigit && d2.isDigit && d3.isDigit && d4.isDigit then
            match rest3 with
            | ')' :: rest4 => some (',' :: ws ++ [d1, d2, d3, d4], rest4)
            | e :: ')' :: rest4 =>
                if e.isLower then some (',' :: ws ++ [d1, d2, d3, d4, e], rest4)
                else none
            | _ => none
          else none
      | _ => none
  | _ => none

/-- Lazy growth of the 2-to-80-character inner run: try the comma-year
tail at the current length before extending by one more non-paren
character.  The fuel counts the remaining growth up to 80. -/
def tryMatchAExt : Nat → Str → Str → Option (Str × Str)
  | 0, accX, rest =>
      match matchAfterComma rest with
      | some (tailInner, after) => some (accX ++ tailInner, after)
      | none => none
  | g + 1, accX, rest =>
      match matchAfterComma rest with
      | some (tailInner, after) => some (accX ++ tailInner, after)
      | none =>
          match rest with
          | [] => none
          | c :: rest2 =>
              if isParen c then none
              else tryMatchAExt g (accX ++ [c]) rest2

/-- Match of the parenthetical pattern immediately after an opening
parenthesis: a lazy run of 2 to 80 non-paren characters, a comma,
optional whitespace, a four-digit year with optional lowercase suffix,
and the closing parenthesis.  Returns the capture (the regex group) and
the rest after the close. -/
def tryMatchA : Str → Option (Str × Str)
  | c1 :: c2 :: rest =>
      if isParen c1 || isParen c2 then none
      else tryMatchAExt 78 [c1, c2] rest
  | _ => none

/-- The trailing-year extraction of the Pattern A callback (line 978). -/
def yearOfInner (inner : Str) : Option Str :=
  let r1 := inner.reverse.dropWhile isWs
  let r2 :=
    match r1 with
    | e :: rest => if e.isLower then rest else r1
    | [] => r1
  match r2 with
  | a :: b :: c :: d :: _ =>
      if a.isDigit && b.isDigit && c.isDigit && d.isDigit then some [d, c, b, a]
      else none
  | _ => none

/-- The removal of the trailing comma-year from the capture (line 983). -/
def stripYearSuffix (inner : Str) : Str :=
  let r1 := inner.reverse.dropWhile isWs
  let r2 :=
    match r1 with
    | e :: rest => if e.isLower then rest else r1
    | [] => r1
  match r2 with
  | a :: b :: c :: d :: rest =>
      if a.isDigit && b.isDigit && c.isDigit && d.isDigit then
        match rest.dropWhile isWs with
        | ',' :: rest2 => rest2.reverse
        | _ => inner
      else inner
  | _ => inner

/-- The case-insensitive strip of a trailing et-al qualifier (the
anchored replace of line 990 and line 1022). -/
def stripEtAl (s : Str) : Str :=
  let r1 :=
    match s.reverse with
    | '.' :: rest => rest
    | r => r
  match r1 with
  | l :: a :: rest =>
      if l.toLower = 'l' && a.toLower = 'a' then
        if rest.takeWhile isWs ≠ [] then
          match rest.dropWhile isWs with
          | t :: e :: rest3 =>
              if t.toLower = 't' && e.toLower = 'e' then
                if rest3.takeWhile isWs ≠ [] then (rest3.dropWhile isWs).reverse
                else s
              else s
          | _ => s
        else s
      else s
  | _ => s

/-- A position matching whitespace, then the given connective word
(case-insensitively), then whitespace and a nonempty newline-free tail
(the and-qualifier strip regexes are dot-anchored to the end of the
string, and the dot does not match newlines). -/
def matchesConnAt (word : Str) (cs : Str) : Bool :=
  cs.takeWhile isWs ≠ []
    && (let r := cs.dropWhile isWs
        isPre word (lowerStr (r.take word.length))
          && (let r2 := r.drop word.length
              r2.takeWhile isWs ≠ []
                && (let r3 := r2.dropWhile isWs
                    r3 ≠ [] && r3.all (fun c => ¬ c = '\n'))))

/-- Leftmost strip of a whitespace-connective-tail suffix. -/
def stripConnGo (word : Str) : Str → Str
  | [] => []
  | c :: cs => if matchesConnAt word (c :: cs) then [] else c :: stripConnGo word cs

/-- The strip of a trailing and-qualifier (line 991). -/
def stripAndTail (s : Str) : Str := stripConnGo (str "and") s

/-- The strip of a trailing ampersand qualifier (line 992). -/
def stripAmpTail (s : Str) : Str := stripConnGo (str "&") s

/-- The last token when the candidate splits into several (lines
997-1000). -/
def lastTokenIfMulti (s : Str) : Str :=
  let parts := wsTokensGo [] s
  if 1 < parts.length then (parts.getLast?).getD s else s

/-- The full surname extraction of the Pattern A callback (lines
983-1000). -/
def surnameOfInnerA (inner : Str) : Str :=
  let authorPart := trimChars (stripYearSuffix inner)
  lastTokenIfMulti (trimChars (stripAmpTail (stripAndTail (stripEtAl authorPart))))

/-- The index lookup of the Pattern A callback (lines 978-1003). -/
def parenLookup (idx : List (Str × CiteVal)) (inner : Str) : Option CiteVal :=
  match yearOfInner inner with
  | none => none
  | some year => authorYearGet idx (lowerStr (surnameOfInnerA inner) ++ '|' :: year)

/-- The Pattern A replacement: a link wrapping the original parenthetical
text on a hit, the unchanged full match otherwise. -/
def parenRepl (idx : List (Str × CiteVal)) (inner : Str) : Str :=
  match parenLookup idx inner with
  | some v => str "[(" ++ inner ++ str ")](" ++ v.uri ++ [')']
  | none => '(' :: inner ++ [')']

/-- The global Pattern A pass (the regex replace of lines 974-1011):
scan left to right; at each opening parenthesis attempt the match, emit
the replacement and continue after the consumed text. -/
def processAF (idx : List (Str × CiteVal)) : Nat → Str → Str
  | 0, s => s
  | _ + 1, [] => []
  | f + 1, c :: cs =>
      if c = '(' then
        match tryMatchA cs with
        | some (inner, rest) => parenRepl idx inner ++ processAF idx f rest
        | none => '(' :: processAF idx f cs
      else c :: processAF idx f cs

def processA (idx : List (Str × CiteVal)) (s : Str) : Str := processAF idx s.length s

/- Pattern B: the narrative citation regex (lines 1015-1041). -/

/-- The author-name character class of the narrative regex: ASCII
letters, the four accented Latin-1 ranges, hyphen and apostrophe. -/
def classW (c : Char) : Bool :=
  c.isAlpha
    || (0xC0 ≤ c.toNat && c.toNat ≤ 0xD6)
    || (0xD8 ≤ c.toNat && c.toNat ≤ 0xDD)
    || (0xE0 ≤ c.toNat && c.toNat ≤ 0xF6)
    || (0xF8 ≤ c.toNat && c.toNat ≤ 0xFF)
    || c = '-' || c = Char.ofNat 39

/-- A word character for the boundary assertion. -/
def isWordChar (c : Char) : Bool := c.isAlphanum || c = '_'

/-- The whitespace-year-parenthesis tail of the narrative pattern,
with the trailing negative lookahead excluding a closing bracket.
Returns the consumed whitespace, the year with optional suffix, and the
rest after the close. -/
def tryYearParen (rs : Str) : Option (Str × Str × Str) :=
  let ws := rs.takeWhile isWs
  if ws = [] then none
  else
    match rs.dropWhile isWs with
    | '(' :: d1 :: d2 :: d3 :: d4 :: r3 =>
        if d1.isDigit && d2.isDigit && d3.isDigit && d4.isDigit then
          match r3 with
          | ')' :: aft =>
              if aft.head? = some ']' then none
              else some (ws, [d1, d2, d3, d4], aft)
          | e :: ')' :: aft =>
              if e.isLower then
                if aft.head? = some ']' then none
                else some (ws, [d1, d2, d3, d4, e], aft)
              else none
          | _ => none
        else none
    | _ => none

/-- The trailing whitespace-plus-name of a connective (shared by the
three alternatives). -/
def connFinish (txt : Str) (rs : Str) : Option (Str × Str) :=
  let ws := rs.takeWhile isWs
  if ws = [] then none
  else
    let r := rs.dropWhile isWs
    let run := r.takeWhile classW
    if run = [] then none
    else some (txt ++ ws ++ run, r.dropWhile classW)

/-- The optional connective of the narrative pattern: whitespace, then
et al (with optional dot) or and or the ampersand, then whitespace and a
second name. -/
def tryConn (rs : Str) : Option (Str × Str) :=
  let ws1 := rs.takeWhile isWs
  if ws1 = [] then none
  else
    match rs.dropWhile isWs with
    | 'e' :: 't' :: r2 =>
        let ws2 := r2.takeWhile isWs
        if ws2 = [] then none
        else
          match r2.dropWhile isWs with
          | 'a' :: 'l' :: r3 =>
              match r3 with
              | '.' :: r4 => connFinish (ws1 ++ 'e' :: 't' :: ws2 ++ ['a', 'l', '.']) r4
              | _ => connFinish (ws1 ++ 'e' :: 't' :: ws2 ++ ['a', 'l']) r3
          | _ => none
    | 'a' :: 'n' :: 'd' :: r2 => connFinish (ws1 ++ ['a', 'n', 'd']) r2
    | '&' :: r2 => connFinish (ws1 ++ ['&']) r2
    | _ => none

/-- Match of the narrative pattern at a candidate start (an uppercase
letter whose boundary and lookbehind conditions are checked by the
caller): the name run, the optional connective (with backtracking when
the year tail fails after it), then the year parenthesis.  Returns the
author text (the capture), the intermediate whitespace, the year with
suffix, and the rest. -/
def tryMatchB : Str → Option (Str × Str × Str × Str)
  | [] => none
  | c1 :: rest =>
      if c1.isUpper then
        let run := rest.takeWhile classW
        if run = [] then none
        else
          let p1 := c1 :: run
          let rest0 := rest.dropWhile classW
          match tryConn rest0 with
          | some (connTxt, rest1) =>
              match tryYearParen rest1 with
              | some (ws, yearWS, after) => some (p1 ++ connTxt, ws, yearWS, after)
              | none =>
                  match tryYearParen rest0 with
                  | some (ws, yearWS, after) => some (p1, ws, yearWS, after)
                  | none => none
          | none =>
              match tryYearParen rest0 with
              | some (ws, yearWS, after) => some (p1, ws, yearWS, after)
              | none => none
      else none

/-- The strip of a trailing and-or-ampersand qualifier of the Pattern B
callback (line 1023). -/
def stripAndAmpTail (s : Str) : Str := stripAmpTail (stripAndTail s)

/-- The surname extraction of the Pattern B callback (lines
1021-1030). -/
def surnameOfAuthorTextB (authorText : Str) : Str :=
  lastTokenIfMulti (trimChars (stripAndAmpTail (stripEtAl authorText)))

/-- The index lookup of the Pattern B callback (lines 1018-1033). -/
def narrLookup (idx : List (Str × CiteVal)) (authorText yearWS : Str) : Option CiteVal :=
  authorYearGet idx (lowerStr (surnameOfAuthorTextB authorText) ++ '|' :: yearWS.take 4)

/-- The Pattern B replacement on a hit (line 1036); the whitespace
between author and year is normalised to one space by the template. -/
def narrRepl (authorText yearWS uri : Str) : Str :=
  '[' :: authorText ++ str " (" ++ yearWS ++ str ")](" ++ uri ++ [')']

/-- The global Pattern B pass: scan with the previous input character
tracked for the lookbehind and boundary assertions; on a match emit the
replacement (or the unchanged full match on a lookup miss) and continue
after the consumed text, whose last character is the closing
parenthesis. -/
def processBF (idx : List (Str × CiteVal)) : Nat → Option Char → Str → Str
  | 0, _, s => s
  | _ + 1, _, [] => []
  | f + 1, prev, c :: cs =>
      if prev ≠ some '[' ∧ (match prev with | none => true | some d => ! isWordChar d) = true then
        match tryMatchB (c :: cs) with
        | some (authorText, wsMid, yearWS, after) =>
            (match narrLookup idx authorText yearWS with
             | some v => narrRepl authorText yearWS v.uri
             | none => authorText ++ wsMid ++ '(' :: yearWS ++ [')'])
              ++ processBF idx f (some ')') after
        | none => c :: processBF idx f (some c) cs
      else c :: processBF idx f (some c) cs

def processB (idx : List (Str × CiteVal)) (s : Str) : Str :=
  processBF idx s.length none s

/- Marker cleanup (line 1044). -/

/-- Match of the bracketed numeric source-index marker after its opening
bracket: the literal itemId colon, one or more digits, the closing
bracket.  Returns the rest after it. -/
def matchMarker (cs : Str) : Option Str :=
  if isPre (str "itemId:") cs then
    if (List.drop 7 cs).takeWhile Char.isDigit ≠ [] then
      match (List.drop 7 cs).dropWhile Char.isDigit with
      | ']' :: rest => some rest
      | _ => none
    else none
  else none

/-- The global removal of leftover markers (line 1044). -/
def cleanupF : Nat → Str → Str
  | 0, s => s
  | _ + 1, [] => []
  | f + 1, c :: cs =>
      if c = '[' then
        match matchMarker cs with
        | some rest => cleanupF f rest
        | none => '[' :: cleanupF f cs
      else c :: cleanupF f cs

def cleanupMarkers (s : Str) : Str := cleanupF s.length s

/-- Does the text contain a marker occurrence? -/
def hasMarker : Str → Bool
  | [] => false
  | c :: cs => (c = '[' && (matchMarker cs).isSome) || hasMarker cs

/-- postProcessCitations (lines 926-1047): build the index; when it is
empty return the prose unchanged; otherwise apply Pattern A, then
Pattern B, then the marker cleanup. -/
def postProcessCitations (items : List SourceItem) (content : Str) : Str :=
  let idx := mkCitationIndex items
  if idx = [] then content
  else cleanupMarkers (processB idx (processA idx content))

section ReplaceAllLemmas

theorem isPre_append_self (p s : Str) : isPre p (p ++ s) = true := by
  induction p with
  | nil => rfl
  | cons a p ih => simp [isPre, ih]

theorem replaceAllF_congr (p r : Str) (hp : p ≠ []) :
    ∀ f g s, s.length ≤ f → s.length ≤ g → replaceAllF p r f s = replaceAllF p r g s := by
  intro f
  induction f with
  | zero =>
    intro g s hf _
    have : s = [] := List.eq_nil_of_length_eq_zero (Nat.le_zero.mp hf)
    subst this
    cases g <;> rfl
  | succ f ih =>
    intro g s hf hg
    cases s with
    | nil => cases g <;> rfl
    | cons c cs =>
      cases g with
      | zero => simp at hg
      | succ g =>
        have hp1 : 1 ≤ p.length := by
          cases p with
          | nil => exact absurd rfl hp
          | cons a q => simp
        simp only [replaceAllF]
        cases hpre : isPre p (c :: cs) with
        | true =>
          simp only [if_true]
          have hlen : (List.drop p.length (c :: cs)).length ≤ f := by
            simp only [List.length_drop, List.length_cons]
            simp only [List.length_cons] at hf
            omega
          have hlen2 : (List.drop p.length (c :: cs)).length ≤ g := by
            simp only [List.length_drop, List.length_cons]
            simp only [List.length_cons] at hg
            omega
          rw [ih g (List.drop p.length (c :: cs)) hlen hlen2]
        | false =>
          simp only [Bool.false_eq_true, if_false]
          have hf' : cs.length ≤ f := by simp only [List.length_cons] at hf; omega
          have hg' : cs.length ≤ g := by simp only [List.length_cons] at hg; omega
          rw [ih g cs hf' hg']

/-- Scan step on a position where the pattern matches. -/
theorem replaceAll_cons_pos {p : Str} (r : Str) {c : Char} {cs : Str}
    (hp : p ≠ []) (h : isPre p (c :: cs) = true) :
    replaceAll p r (c :: cs) = r ++ replaceAll p r (List.drop p.length (c :: cs)) := by
  unfold replaceAll
  simp only [List.length_cons, replaceAllF, h, if_true]
  congr 1
  exact replaceAllF_congr p r hp cs.length (List.drop p.length (c :: cs)).length _
    (by
      have hp1 : 1 ≤ p.length := by
        cases p with
        | nil => exact absurd rfl hp
        | cons a q => simp
      have := List.length_drop p.length (c :: cs)
      simp only [this, List.length_cons]
      omega)
    (le_refl _)

/-- Scan step on a position where the pattern does not match. -/
theorem replaceAll_cons_neg {p : Str} (r : Str) {c : Char} {cs : Str}
    (h : isPre p (c :: cs) = false) :
    replaceAll p r (c :: cs) = c :: replaceAll p r cs := by
  unfold replaceAll
  simp only [List.length_cons, replaceAllF, h]
  simp

/-- Replacing the pattern at the head of the text. -/
theorem replaceAll_head {p : Str} (r : Str) (s : Str) (hp : p ≠ []) :
    replaceAll p r (p ++ s) = r ++ replaceAll p r s := by
  cases p with
  | nil => exact absurd rfl hp
  | cons a q =>
    have hpre : isPre (a :: q) ((a :: q) ++ s) = true := isPre_append_self _ _
    have hstep := @replaceAll_cons_pos (a :: q) r a (q ++ s) hp
      (by simpa using hpre)
    simp only [List.cons_append] at hstep ⊢
    rw [hstep]
    congr 1
    have : List.drop (a :: q).length (a :: (q ++ s)) = s := by
      have := List.drop_left (a :: q) s
      simpa using this
    rw [this]

/-- A pattern that occurs nowhere is not replaced. -/
theorem replaceAll_no_occ {p : Str} (r : Str) {s : Str} (hp : p ≠ [])
    (h : occursSub p s = false) : replaceAll p r s = s := by
  induction s with
  | nil =>
    unfold replaceAll
    rfl
  | cons c cs ih =>
    simp only [occursSub, Bool.or_eq_false_iff] at h
    rw [replaceAll_cons_neg r h.1, ih h.2]

end ReplaceAllLemmas

section EscapeRoundTrip

theorem encAll_append (f : Char → Str) (a b : Str) :
    encAll f (a ++ b) = encAll f a ++ encAll f b := by
  induction a with
  | nil => rfl
  | cons c cs ih => simp [encAll, ih]

theorem encAll_singleton_id (s : Str) : encAll (fun c => [c]) s = s := by
  induction s with
  | nil => rfl
  | cons c cs ih => simp [encAll, ih]

theorem isPre_head_ne {a c : Char} (p : Str) (cs : Str) (h : a ≠ c) :
    isPre (a :: p) (c :: cs) = false := by
  simp [isPre, h]

/-- No replacement can begin inside a chunk that avoids the pattern head. -/
theorem replaceAll_skip {a : Char} {p : Str} (r : Str) {w : Str} (t : Str)
    (hw : ∀ c ∈ w, a ≠ c) :
    replaceAll (a :: p) r (w ++ t) = w ++ replaceAll (a :: p) r t := by
  induction w with
  | nil => rfl
  | cons c w ih =>
    have hne : a ≠ c := hw c (by simp)
    rw [List.cons_append, replaceAll_cons_neg r (isPre_head_ne p _ hne)]
    rw [ih (fun d hd => hw d (by simp [hd]))]
    simp

theorem replace_amp_eq (s : Str) :
    replaceAll ['&'] ampEnt s = encAll encA s := by
  induction s with
  | nil => rfl
  | cons c cs ih =>
    by_cases hc : c = '&'
    · subst hc
      have h := replaceAll_head (p := ['&']) ampEnt cs (by simp)
      simp only [List.singleton_append] at h
      rw [h, ih]
      simp [encAll, encA]
    · rw [replaceAll_cons_neg _ (isPre_head_ne [] cs (Ne.symm hc))]
      simp only [encAll, encA, if_neg hc, List.singleton_append]
      rw [ih]

theorem replace_lt_enc (s : Str) :
    replaceAll ['<'] ltEnt (encAll encA s) = encAll encAL s := by
  induction s with
  | nil => rfl
  | cons c cs ih =>
    rcases eq_or_ne c '&' with ha | ha
    · subst ha
      show replaceAll ['<'] ltEnt (ampEnt ++ encAll encA cs) = ampEnt ++ encAll encAL cs
      have hskip := replaceAll_skip (a := '<') (p := []) ltEnt
        (w := ampEnt) (encAll encA cs) (by decide)
      rw [hskip, ih]
    · rcases eq_or_ne c '<' with hl | hl
      · subst hl
        show replaceAll ['<'] ltEnt ('<' :: encAll encA cs) = ltEnt ++ encAll encAL cs
        have h := replaceAll_head (p := ['<']) ltEnt (encAll encA cs) (by simp)
        simp only [List.singleton_append] at h
        rw [h, ih]
      · show replaceAll ['<'] ltEnt (encA c ++ encAll encA cs)
          = encAL c ++ encAll encAL cs
        rw [show encA c = [c] from by simp [encA, ha],
          show encAL c = [c] from by simp [encAL, ha, hl], List.singleton_append,
          List.singleton_append,
          replaceAll_cons_neg _ (isPre_head_ne [] _ (Ne.symm hl)), ih]

theorem replace_gt_enc (s : Str) :
    replaceAll ['>'] gtEnt (encAll encAL s) = encAll encFull s := by
  induction s with
  | nil => rfl
  | cons c cs ih =>
    rcases eq_or_ne c '&' with ha | ha
    · subst ha
      show replaceAll ['>'] gtEnt (ampEnt ++ encAll encAL cs) = ampEnt ++ encAll encFull cs
      have hskip := replaceAll_skip (a := '>') (p := []) gtEnt
        (w := ampEnt) (encAll encAL cs) (by decide)
      rw [hskip, ih]
    · rcases eq_or_ne c '<' with hl | hl
      · subst hl
        show replaceAll ['>'] gtEnt (ltEnt ++ encAll encAL cs) = ltEnt ++ encAll encFull cs
        have hskip := replaceAll_skip (a := '>') (p := []) gtEnt
          (w := ltEnt) (encAll encAL cs) (by decide)
        rw [hskip, ih]
      · rcases eq_or_ne c '>' with hg | hg
        · subst hg
          show replaceAll ['>'] gtEnt ('>' :: encAll encAL cs) = gtEnt ++ encAll encFull cs
          have h := replaceAll_head (p := ['>']) gtEnt (encAll encAL cs) (by simp)
          simp only [List.singleton_append] at h
          rw [h, ih]
        · show replaceAll ['>'] gtEnt (encAL c ++ encAll encAL cs)
            = encFull c ++ encAll encFull cs
          rw [show encAL c = [c] from by simp [encAL, ha, hl],
            show encFull c = [c] from by simp [encFull, ha, hl, hg], List.singleton_append,
            List.singleton_append,
            replaceAll_cons_neg _ (isPre_head_ne [] _ (Ne.symm hg)), ih]

/-- The three sequential escape passes amount to the character-wise escape. -/
theorem escapeHtml_eq (s : Str) : escapeHtml s = encAll encFull s := by
  unfold escapeHtml
  rw [replace_amp_eq, replace_lt_enc, replace_gt_enc]

theorem occursSub_cons_false {p : Str} {c : Char} {cs : Str}
    (h : occursSub p (c :: cs) = false) :
    isPre p (c :: cs) = false ∧ occursSub p cs = false := by
  simpa [occursSub, Bool.or_eq_false_iff] using h

/-- A pattern of plain characters is a prefix of the encoded text iff it is
a prefix of the source text, for encoders that expand only angle brackets
into amp-led entities. -/
theorem isPre_encAll_plain (enc : Char → Str)
    (henc : ∀ d, enc d = [d] ∨ ((∃ u, enc d = '&' :: u) ∧ (d = '<' ∨ d = '>')))
    (w : Str) (hw : ∀ c ∈ w, c ≠ '&' ∧ c ≠ '<' ∧ c ≠ '>') :
    ∀ t, isPre w (encAll enc t) = isPre w t := by
  induction w with
  | nil => intro t; rfl
  | cons a w ihw =>
    intro t
    have ha := hw a (by simp)
    cases t with
    | nil => rfl
    | cons d t =>
      rcases henc d with hd | ⟨⟨u, hu⟩, hd⟩
      · show isPre (a :: w) (enc d ++ encAll enc t) = isPre (a :: w) (d :: t)
        rw [hd, List.singleton_append]
        show (decide (a = d) && isPre w (encAll enc t)) = (decide (a = d) && isPre w t)
        rw [ihw (fun c hc => hw c (by simp [hc]))]
      · have had : a ≠ d := by
          rcases hd with h | h <;> simp [h, ha.2.1, ha.2.2]
        show isPre (a :: w) (enc d ++ encAll enc t) = isPre (a :: w) (d :: t)
        rw [hu, List.cons_append]
        show (decide (a = '&') && isPre w (u ++ encAll enc t))
          = (decide (a = d) && isPre w t)
        simp [ha.1, had]

theorem encLtGt_plain :
    ∀ d, encLtGt d = [d] ∨ ((∃ u, encLtGt d = '&' :: u) ∧ (d = '<' ∨ d = '>')) := by
  intro d
  by_cases h1 : d = '<'
  · subst h1; right; exact ⟨⟨['l', 't', ';'], rfl⟩, Or.inl rfl⟩
  · by_cases h2 : d = '>'
    · subst h2; right; exact ⟨⟨['g', 't', ';'], rfl⟩, Or.inr rfl⟩
    · left; simp [encLtGt, h1, h2]

theorem encGt_plain :
    ∀ d, encGt d = [d] ∨ ((∃ u, encGt d = '&' :: u) ∧ (d = '<' ∨ d = '>')) := by
  intro d
  by_cases h2 : d = '>'
  · subst h2; right; exact ⟨⟨['g', 't', ';'], rfl⟩, Or.inr rfl⟩
  · left; simp [encGt, h2]

/-- First unescape pass (amp entity) undoes exactly the ampersand escape. -/
theorem unescape_amp (s : Str) :
    replaceAll ampEnt ['&'] (encAll encFull s) = encAll encLtGt s := by
  induction s with
  | nil => rfl
  | cons c cs ih =>
    rcases eq_or_ne c '&' with ha | ha
    · subst ha
      show replaceAll ampEnt ['&'] (ampEnt ++ encAll encFull cs) = '&' :: encAll encLtGt cs
      rw [replaceAll_head _ _ (by simp [ampEnt]), ih]
      rfl
    · rcases eq_or_ne c '<' with hl | hl
      · subst hl
        show replaceAll ampEnt ['&'] ('&' :: 'l' :: 't' :: ';' :: encAll encFull cs)
          = ltEnt ++ encAll encLtGt cs
        rw [replaceAll_cons_neg _ (by rfl)]
        rw [replaceAll_cons_neg _ (by rfl)]
        rw [replaceAll_cons_neg _ (by rfl)]
        rw [replaceAll_cons_neg _ (by rfl)]
        rw [ih]
        rfl
      · rcases eq_or_ne c '>' with hg | hg
        · subst hg
          show replaceAll ampEnt ['&'] ('&' :: 'g' :: 't' :: ';' :: encAll encFull cs)
            = gtEnt ++ encAll encLtGt cs
          rw [replaceAll_cons_neg _ (by rfl)]
          rw [replaceAll_cons_neg _ (by rfl)]
          rw [replaceAll_cons_neg _ (by rfl)]
          rw [replaceAll_cons_neg _ (by rfl)]
          rw [ih]
          rfl
        · show replaceAll ampEnt ['&'] (encFull c ++ encAll encFull cs)
            = encLtGt c ++ encAll encLtGt cs
          rw [show encFull c = [c] from by simp [encFull, ha, hl, hg],
            show encLtGt c = [c] from by simp [encLtGt, hl, hg],
            List.singleton_append, List.singleton_append,
            replaceAll_cons_neg _
              (show isPre ampEnt (c :: encAll encFull cs) = false from
                isPre_head_ne _ _ (Ne.symm ha)), ih]

/-- Second unescape pass (lt entity), sound when the source text does not
itself contain the lt entity spelled out. -/
theorem unescape_lt {s : Str} (hs : occursSub ltEnt s = false) :
    replaceAll ltEnt ['<'] (encAll encLtGt s) = encAll encGt s := by
  induction s with
  | nil => rfl
  | cons c cs ih =>
    obtain ⟨hhead, htail⟩ := occursSub_cons_false hs
    rcases eq_or_ne c '<' with hl | hl
    · subst hl
      show replaceAll ltEnt ['<'] (ltEnt ++ encAll encLtGt cs) = '<' :: encAll encGt cs
      rw [replaceAll_head _ _ (by simp [ltEnt]), ih htail]
      rfl
    · rcases eq_or_ne c '>' with hg | hg
      · subst hg
        show replaceAll ltEnt ['<'] ('&' :: 'g' :: 't' :: ';' :: encAll encLtGt cs)
          = gtEnt ++ encAll encGt cs
        rw [replaceAll_cons_neg _ (by rfl)]
        rw [replaceAll_cons_neg _ (by rfl)]
        rw [replaceAll_cons_neg _ (by rfl)]
        rw [replaceAll_cons_neg _ (by rfl)]
        rw [ih htail]
        rfl
      · rcases eq_or_ne c '&' with ha | ha
        · subst ha
          show replaceAll ltEnt ['<'] ('&' :: encAll encLtGt cs) = '&' :: encAll encGt cs
          have hfail : isPre ltEnt ('&' :: encAll encLtGt cs) = false := by
            show isPre ['l', 't', ';'] (encAll encLtGt cs) = false
            rw [isPre_encAll_plain encLtGt encLtGt_plain _ (by decide)]
            exact hhead
          rw [replaceAll_cons_neg _ hfail, ih htail]
        · show replaceAll ltEnt ['<'] (encLtGt c ++ encAll encLtGt cs)
            = encGt c ++ encAll encGt cs
          rw [show encLtGt c = [c] from by simp [encLtGt, hl, hg],
            show encGt c = [c] from by simp [encGt, hg],
            List.singleton_append, List.singleton_append,
            replaceAll_cons_neg _
              (show isPre ltEnt (c :: encAll encLtGt cs) = false from
                isPre_head_ne _ _ (Ne.symm ha)), ih htail]

/-- Third unescape pass (gt entity), sound when the source text does not
itself contain the gt entity spelled out. -/
theorem unescape_gt {s : Str} (hs : occursSub gtEnt s = false) :
    replaceAll gtEnt ['>'] (encAll encGt s) = s := by
  induction s with
  | nil => rfl
  | cons c cs ih =>
    obtain ⟨hhead, htail⟩ := occursSub_cons_false hs
    rcases eq_or_ne c '>' with hg | hg
    · subst hg
      show replaceAll gtEnt ['>'] (gtEnt ++ encAll encGt cs) = '>' :: cs
      rw [replaceAll_head _ _ (by simp [gtEnt]), ih htail]
      rfl
    · rcases eq_or_ne c '&' with ha | ha
      · subst ha
        show replaceAll gtEnt ['>'] ('&' :: encAll encGt cs) = '&' :: cs
        have hfail : isPre gtEnt ('&' :: encAll encGt cs) = false := by
          show isPre ['g', 't', ';'] (encAll encGt cs) = false
          rw [isPre_encAll_plain encGt encGt_plain _ (by decide)]
          exact hhead
        rw [replaceAll_cons_neg _ hfail, ih htail]
      · show replaceAll gtEnt ['>'] (encGt c ++ encAll encGt cs) = c :: cs
        rw [show encGt c = [c] from by simp [encGt, hg],
          List.singleton_append,
          replaceAll_cons_neg _
            (show isPre gtEnt (c :: encAll encGt cs) = false from
              isPre_head_ne _ _ (Ne.symm ha)), ih htail]

/-- The round-trip of the escape of saveTableNote through the unescape of
findTableNote is the identity, provided the text does not spell out the
lt, gt or quot entities (the sequential unescape order mangles those). -/
theorem unescape_escape {s : Str}
    (h1 : occursSub ltEnt s = false) (h2 : occursSub gtEnt s = false)
    (h3 : occursSub quotEnt s = false) :
    unescapeHtml (escapeHtml s) = s := by
  unfold unescapeHtml
  rw [escapeHtml_eq, unescape_amp, unescape_lt h1, unescape_gt h2,
    replaceAll_no_occ _ (by simp [quotEnt]) h3]

end EscapeRoundTrip

section ExtractRawLemmas

theorem extractRaw_cons_ne {c : Char} (cs : Str) (h : c ≠ '<') :
    extractRaw (c :: cs) = extractRaw cs := by
  have hd : isPre (str "<div") (c :: cs) = false := isPre_head_ne _ _ (Ne.symm h)
  have hp : isPre (str "<pre") (c :: cs) = false := isPre_head_ne _ _ (Ne.symm h)
  simp [extractRaw, tryFull, tryOpen, hd, hp]

/-- No regex match can start inside a chunk free of left angle brackets. -/
theorem extractRaw_skip (w X : Str) (hw : ∀ c ∈ w, ¬ c = '<') :
    extractRaw (w ++ X) = extractRaw X := by
  induction w with
  | nil => rfl
  | cons c w ih =>
    rw [List.cons_append, extractRaw_cons_ne _ (hw c (by simp)),
      ih (fun d hd => hw d (by simp [hd]))]

/-- The h2 header of the note HTML admits no match start. -/
theorem extractRaw_segA (Z : Str) :
    extractRaw (str "<h2>📊 文献表格 - " ++ Z) = extractRaw Z := by
  have s1 : extractRaw (str "<h2>📊 文献表格 - " ++ Z)
      = extractRaw (str "h2>📊 文献表格 - " ++ Z) := rfl
  rw [s1, extractRaw_skip (str "h2>📊 文献表格 - ") _ (by decide)]

/-- The closing h2 and the plain display div admit no match start (the
display div has an empty attribute segment, so the marker test fails). -/
theorem extractRaw_segB (Z : Str) :
    extractRaw (str "</h2>" ++ (str "<div>" ++ Z)) = extractRaw Z := by
  have s1 : extractRaw (str "</h2>" ++ (str "<div>" ++ Z))
      = extractRaw (str "/h2>" ++ (str "<div>" ++ Z)) := rfl
  rw [s1, extractRaw_skip (str "/h2>") _ (by decide)]
  have s2 : extractRaw (str "<div>" ++ Z) = extractRaw (str "div>" ++ Z) := rfl
  rw [s2, extractRaw_skip (str "div>") _ (by decide)]

/-- A closing div admits no match start. -/
theorem extractRaw_segC (Z : Str) :
    extractRaw (str "</div>" ++ Z) = extractRaw Z := by
  have s1 : extractRaw (str "</div>" ++ Z) = extractRaw (str "/div>" ++ Z) := rfl
  rw [s1, extractRaw_skip (str "/div>") _ (by decide)]

theorem firstGt_skip (w : Str) {rest : Str} (hw : ∀ c ∈ w, ¬ c = '>') :
    firstGt (w ++ '>' :: rest) = some (w, rest) := by
  induction w with
  | nil => rfl
  | cons c w ih =>
    rw [List.cons_append]
    show firstGt (c :: (w ++ '>' :: rest)) = _
    rw [firstGt]
    rw [if_neg (by exact_mod_cast hw c (by simp))]
    rw [ih (fun d hd => hw d (by simp [hd]))]

theorem findCloseTag_skip (E : Str) (hE : ∀ c ∈ E, ¬ c = '<') :
    findCloseTag (E ++ str "</div>") = some (E, []) := by
  induction E with
  | nil => decide
  | cons c E ih =>
    have hc : c ≠ '<' := hE c (by simp)
    have h1 : isPre (str "</div>") (c :: (E ++ str "</div>")) = false :=
      isPre_head_ne _ _ (Ne.symm hc)
    have h2 : isPre (str "</pre>") (c :: (E ++ str "</div>")) = false :=
      isPre_head_ne _ _ (Ne.symm hc)
    rw [List.cons_append, findCloseTag]
    rw [if_neg (by simp [h1, h2])]
    rw [ih (fun d hd => hE d (by simp [hd]))]

theorem extractRaw_of_tryFull {s cap : Str} (hs : s ≠ []) (h : tryFull s = some cap) :
    extractRaw s = some cap := by
  cases s with
  | nil => exact absurd rfl hs
  | cons c cs => simp [extractRaw, h]

/-- At the hidden block the regex matches and captures exactly the escaped
raw markdown: the attribute segment mentions the marker and, the escaped
payload being free of left angle brackets, the first closing tag is the
block's own. -/
theorem extractRaw_target (E : Str) (hE : ∀ c ∈ E, ¬ c = '<') :
    extractRaw (str "<div style=\"display:none\" data-ai-table-raw>" ++ (E ++ str "</div>"))
      = some E := by
  have hdrop : List.drop 4 (str "<div style=\"display:none\" data-ai-table-raw>" ++ (E ++ str "</div>"))
      = str " style=\"display:none\" data-ai-table-raw" ++ ('>' :: (E ++ str "</div>")) := rfl
  have hopen : tryOpen (str "<div style=\"display:none\" data-ai-table-raw>" ++ (E ++ str "</div>"))
      = some (E ++ str "</div>") := by
    unfold tryOpen
    rw [if_pos (by rfl)]
    rw [hdrop, firstGt_skip _ (by decide)]
    show (if occursSub attrMark (str " style=\"display:none\" data-ai-table-raw") = true
        then some (E ++ str "</div>") else none) = some (E ++ str "</div>")
    rw [if_pos (by decide)]
  have hfull : tryFull (str "<div style=\"display:none\" data-ai-table-raw>" ++ (E ++ str "</div>"))
      = some E := by
    unfold tryFull
    rw [hopen]
    show (match findCloseTag (E ++ str "</div>") with
      | some (cap, _) => some cap
      | none => none) = some E
    rw [findCloseTag_skip E hE]
  exact extractRaw_of_tryFull (by simp [str]) hfull

theorem encFull_no_lt (c : Char) : ∀ d ∈ encFull c, ¬ d = '<' := by
  intro d hd
  unfold encFull at hd
  by_cases h1 : c = '&'
  · rw [if_pos h1] at hd
    simp [ampEnt] at hd
    rcases hd with rfl | rfl | rfl | rfl | rfl <;> decide
  · rw [if_neg h1] at hd
    by_cases h2 : c = '<'
    · rw [if_pos h2] at hd
      simp [ltEnt] at hd
      rcases hd with rfl | rfl | rfl | rfl <;> decide
    · rw [if_neg h2] at hd
      by_cases h3 : c = '>'
      · rw [if_pos h3] at hd
        simp [gtEnt] at hd
        rcases hd with rfl | rfl | rfl | rfl <;> decide
      · rw [if_neg h3] at hd
        simp at hd
        subst hd
        exact h2

/-- The escaped payload contains no left angle bracket. -/
theorem escapeHtml_no_lt (t : Str) : ∀ c ∈ escapeHtml t, ¬ c = '<' := by
  rw [escapeHtml_eq]
  induction t with
  | nil => simp [encAll]
  | cons c cs ih =>
    intro d hd
    simp only [encAll, List.mem_append] at hd
    rcases hd with hd | hd
    · exact encFull_no_lt c d hd
    · exact ih d hd

theorem escapeHtml_ne_nil {t : Str} (h : t ≠ []) : escapeHtml t ≠ [] := by
  rw [escapeHtml_eq]
  cases t with
  | nil => exact absurd rfl h
  | cons c cs =>
    show encFull c ++ encAll encFull cs ≠ []
    have : encFull c ≠ [] := by
      unfold encFull
      by_cases h1 : c = '&'
      · simp [h1, ampEnt]
      · by_cases h2 : c = '<'
        · simp [h1, h2, ltEnt]
        · by_cases h3 : c = '>'
          · simp [h1, h2, h3, gtEnt]
          · simp [h1, h2, h3]
    simp [this]

/-- The whole note HTML built by saveTableNote yields exactly the escaped
raw payload under the raw-extraction regex, provided neither the title
slice nor the rendered display form contains a left angle bracket. -/
theorem extractRaw_noteHtml (render : Str → Str) (title t : Str)
    (htitle : ∀ c ∈ title, ¬ c = '<') (hrender : ∀ c ∈ render t, ¬ c = '<') :
    extractRaw (noteHtmlOf render title t) = some (escapeHtml t) := by
  have hT : ∀ c ∈ (if title = [] then str "未知" else title).take 60, ¬ c = '<' := by
    intro c hc
    by_cases h0 : title = []
    · rw [if_pos h0] at hc
      revert hc
      revert c
      decide
    · rw [if_neg h0] at hc
      exact htitle c (List.take_subset _ _ hc)
  unfold noteHtmlOf
  simp only [List.append_assoc]
  rw [extractRaw_segA, extractRaw_skip _ _ hT, extractRaw_segB,
    extractRaw_skip _ _ hrender, extractRaw_segC,
    extractRaw_target _ (escapeHtml_no_lt t)]

end ExtractRawLemmas

section CacheLemmas

theorem findTableNote_untagged {notes : List Note}
    (h : ∀ n ∈ notes, TABLE_NOTE_TAG ∉ n.tags) : findTableNote notes = none := by
  induction notes with
  | nil => rfl
  | cons n rest ih =>
    rw [findTableNote, if_neg (h n (by simp))]
    exact ih (fun m hm => h m (by simp [hm]))

theorem findTableNote_append_untagged {notes : List Note} (rest : List Note)
    (h : ∀ n ∈ notes, TABLE_NOTE_TAG ∉ n.tags) :
    findTableNote (notes ++ rest) = findTableNote rest := by
  induction notes with
  | nil => rfl
  | cons n ns ih =>
    rw [List.cons_append, findTableNote, if_neg (h n (by simp))]
    exact ih (fun m hm => h m (by simp [hm]))

/-- Storing a table on a source with no tagged note and reading it back
returns the stored text, under the conditions the sequential unescape and
the trim require (and the modelling hypotheses that the title slice and
the rendered display form contain no left angle bracket). -/
theorem saveTableNote_roundtrip (render : Str → Str) (title : Str)
    (notes : List Note) (t : Str)
    (hnotag : ∀ n ∈ notes, TABLE_NOTE_TAG ∉ n.tags)
    (htrim : trimChars t = t) (hne : t ≠ [])
    (h1 : occursSub ltEnt t = false) (h2 : occursSub gtEnt t = false)
    (h3 : occursSub quotEnt t = false)
    (htitle : ∀ c ∈ title, ¬ c = '<') (hrender : ∀ c ∈ render t, ¬ c = '<') :
    findTableNote (saveTableNote render title notes t).1 = some t := by
  have hfind : findTableNote notes = none := findTableNote_untagged hnotag
  unfold saveTableNote
  rw [hfind]
  show findTableNote (createTableNote render title notes t).1 = some t
  unfold createTableNote
  show findTableNote (notes ++ [⟨[TABLE_NOTE_TAG], noteHtmlOf render title t⟩]) = some t
  rw [findTableNote_append_untagged _ hnotag]
  rw [findTableNote, if_pos (by simp)]
  rw [extractRaw_noteHtml render title t htitle hrender]
  show (if escapeHtml t ≠ [] then
      if trimChars (unescapeHtml (escapeHtml t)) = [] then none
      else some (trimChars (unescapeHtml (escapeHtml t)))
    else legacyText (noteHtmlOf render title t)) = some t
  rw [if_pos (escapeHtml_ne_nil hne)]
  rw [unescape_escape h1 h2 h3, htrim, if_neg hne]

theorem firstTagged_of_find {notes : List Note} {s : Str}
    (h : findTableNote notes = some s) : ∃ n, firstTagged notes = some n := by
  induction notes with
  | nil => simp [findTableNote] at h
  | cons m rest ih =>
    by_cases hm : TABLE_NOTE_TAG ∈ m.tags
    · exact ⟨m, by simp [firstTagged, List.find?, hm]⟩
    · rw [findTableNote, if_neg hm] at h
      obtain ⟨n, hn⟩ := ih h
      refine ⟨n, ?_⟩
      simpa [firstTagged, List.find?, hm] using hn

/-- When findTableNote already returns content, a second saveTableNote
leaves the notes unchanged, returns the first tagged note, and a
subsequent findTableNote still returns the same content. -/
theorem saveTableNote_existing (render : Str → Str) (title t2 : Str)
    {notes : List Note} {s : Str} (hfind : findTableNote notes = some s) :
    (saveTableNote render title notes t2).1 = notes ∧
    findTableNote (saveTableNote render title notes t2).1 = some s ∧
    ∃ n, firstTagged notes = some n ∧ (saveTableNote render title notes t2).2 = n := by
  obtain ⟨n, hn⟩ := firstTagged_of_find hfind
  unfold saveTableNote
  rw [hfind, hn]
  exact ⟨rfl, hfind, n, rfl, rfl⟩

end CacheLemmas

section SchedulerLemmas

variable (render : Str → Str) (oracle : Nat → Except Str Str) (total : Nat)

theorem fillStep_completed (st : FillState) (i : Nat) (p : SourceItem) :
    (fillStep render oracle total st i p).completed = st.completed + 1 := by
  unfold fillStep
  cases findTableNote (st.store p.id) with
  | some t => rfl
  | none => cases oracle i with
    | ok tbl => rfl
    | error msg => rfl

theorem fillStep_events (st : FillState) (i : Nat) (p : SourceItem) :
    (fillStep render oracle total st i p).events
      = st.events ++ stepEventsOf render oracle st i p total := by
  unfold fillStep stepEventsOf
  cases findTableNote (st.store p.id) with
  | some t => rfl
  | none => cases oracle i with
    | ok tbl => rfl
    | error msg => rfl

theorem fillStep_results (st : FillState) (i : Nat) (p : SourceItem) :
    (fillStep render oracle total st i p).results
      = mapSet st.results p.id (stepOutcome render oracle st i p) := by
  unfold fillStep stepOutcome
  cases findTableNote (st.store p.id) with
  | some t => rfl
  | none => cases oracle i with
    | ok tbl => rfl
    | error msg => rfl

theorem stepEventsOf_idx (st : FillState) (i : Nat) (p : SourceItem) :
    ∀ e ∈ stepEventsOf render oracle st i p total, evIdx e = some i ∨ evIdx e = none := by
  unfold stepEventsOf
  cases findTableNote (st.store p.id) with
  | some t => intro e he; simp at he; rcases he with rfl | rfl <;> simp [evIdx]
  | none =>
    cases oracle i with
    | ok tbl =>
      intro e he; simp at he
      rcases he with rfl | rfl | rfl | rfl <;> simp [evIdx]
    | error msg =>
      intro e he; simp at he
      rcases he with rfl | rfl | rfl <;> simp [evIdx]

theorem runQueue_split (ps qs : List SourceItem) :
    ∀ st j, runQueue render oracle total st j (ps ++ qs)
      = runQueue render oracle total (runQueue render oracle total st j ps) (j + ps.length) qs := by
  induction ps with
  | nil => intro st j; simp [runQueue]
  | cons p ps ih =>
    intro st j
    rw [List.cons_append]
    show runQueue render oracle total (fillStep render oracle total st j p) (j + 1) (ps ++ qs) = _
    rw [ih]
    show _ = runQueue render oracle total
      (runQueue render oracle total (fillStep render oracle total st j p) (j + 1) ps)
      (j + (ps.length + 1)) qs
    congr 1
    omega

theorem runQueue_events_decomp (ps : List SourceItem) :
    ∀ st j, ∃ tail, (runQueue render oracle total st j ps).events = st.events ++ tail := by
  induction ps with
  | nil => intro st j; exact ⟨[], by simp [runQueue]⟩
  | cons p ps ih =>
    intro st j
    obtain ⟨tail, htail⟩ := ih (fillStep render oracle total st j p) (j + 1)
    refine ⟨stepEventsOf render oracle st j p total ++ tail, ?_⟩
    show (runQueue render oracle total (fillStep render oracle total st j p) (j + 1) ps).events = _
    rw [htail, fillStep_events]
    simp

theorem runQueue_events_bound (ps : List SourceItem) :
    ∀ st j e, e ∈ (runQueue render oracle total st j ps).events →
      e ∈ st.events ∨ (∃ k, evIdx e = some k ∧ j ≤ k ∧ k < j + ps.length) ∨ evIdx e = none := by
  induction ps with
  | nil => intro st j e he; exact Or.inl he
  | cons p ps ih =>
    intro st j e he
    have := ih (fillStep render oracle total st j p) (j + 1) e he
    rcases this with hmem | ⟨k, hk, hk1, hk2⟩ | hnone
    · rw [fillStep_events] at hmem
      rcases List.mem_append.mp hmem with hmem | hmem
      · exact Or.inl hmem
      · rcases stepEventsOf_idx render oracle total st j p e hmem with hidx | hidx
        · exact Or.inr (Or.inl ⟨j, hidx, le_refl j, by simp⟩)
        · exact Or.inr (Or.inr hidx)
    · exact Or.inr (Or.inl ⟨k, hk, by omega, by simp [List.length_cons]; omega⟩)
    · exact Or.inr (Or.inr hnone)

theorem progressSeq_append (st : FillState) (evs : List FillEvent) :
    progressSeq { st with events := st.events ++ evs }
      = progressSeq st ++ evs.filterMap (fun e =>
          match e with
          | .progress d t => some (d, t)
          | _ => none) := by
  simp [progressSeq]

theorem fillStep_progressSeq (st : FillState) (i : Nat) (p : SourceItem) :
    progressSeq (fillStep render oracle total st i p)
      = progressSeq st ++ [(st.completed + 1, total)] := by
  unfold fillStep
  cases findTableNote (st.store p.id) with
  | some t => simp [progressSeq]
  | none => cases oracle i with
    | ok tbl => simp [progressSeq]
    | error msg => simp [progressSeq]

theorem runQueue_progress (ps : List SourceItem) :
    ∀ st j, progressSeq (runQueue render oracle total st j ps)
      = progressSeq st ++ (List.range ps.length).map (fun k => (st.completed + 1 + k, total)) := by
  induction ps with
  | nil => intro st j; simp [runQueue]
  | cons p ps ih =>
    intro st j
    show progressSeq (runQueue render oracle total (fillStep render oracle total st j p) (j + 1) ps) = _
    rw [ih, fillStep_progressSeq, fillStep_completed]
    have hmap : List.map (fun k => (st.completed + 1 + 1 + k, total)) (List.range ps.length)
        = List.map ((fun k => (st.completed + 1 + k, total)) ∘ Nat.succ) (List.range ps.length) := by
      apply List.map_congr_left
      intro k _
      simp only [Function.comp_apply, Nat.succ_eq_add_one]
      congr 1
      omega
    rw [hmap]
    simp only [List.length_cons, List.range_succ_eq_map, List.map_cons, List.map_map,
      List.append_assoc, List.singleton_append, Nat.add_zero]

theorem find_map_set (k : Nat) (v : Str) :
    ∀ m : List (Nat × Str), m.any (fun q => q.1 = k) = true →
      (m.map (fun q => if q.1 = k then (k, v) else q)).find? (fun q => q.1 = k)
        = some (k, v) := by
  intro m
  induction m with
  | nil => intro h; simp at h
  | cons q m ih =>
    intro h
    by_cases hq : q.1 = k
    · simp [List.find?, hq]
    · simp only [List.any_cons] at h
      have hm : m.any (fun q => q.1 = k) = true := by
        rcases Bool.or_eq_true_iff.mp h with h1 | h1
        · exact absurd (of_decide_eq_true h1) hq
        · exact h1
      simp only [List.map_cons, if_neg hq]
      rw [List.find?_cons_of_neg _ (by simpa using hq)]
      exact ih hm

theorem find_append_single (m : List (Nat × Str)) (k : Nat) (v : Str)
    (h : m.any (fun q => q.1 = k) = false) :
    (m ++ [(k, v)]).find? (fun q => q.1 = k) = some (k, v) := by
  induction m with
  | nil => simp [List.find?]
  | cons q m ih =>
    simp only [List.any_cons, Bool.or_eq_false_iff] at h
    rw [List.cons_append, List.find?_cons_of_neg _ (by simpa using h.1)]
    exact ih h.2

theorem mapGet_mapSet_self (m : List (Nat × Str)) (k : Nat) (v : Str) :
    mapGet (mapSet m k v) k = some v := by
  unfold mapGet mapSet
  by_cases h : m.any (fun q => q.1 = k) = true
  · rw [if_pos h, find_map_set k v m h]
    rfl
  · rw [if_neg h, find_append_single m k v (Bool.eq_false_iff.mpr h)]
    rfl

theorem mapGet_mapSet_ne (m : List (Nat × Str)) {k k' : Nat} (v : Str)
    (hne : k' ≠ k) : mapGet (mapSet m k v) k' = mapGet m k' := by
  unfold mapGet mapSet
  by_cases h : m.any (fun q => q.1 = k) = true
  · rw [if_pos h]
    congr 1
    clear h
    induction m with
    | nil => rfl
    | cons q m ih =>
      by_cases hq : q.1 = k
      · have hq' : ¬ q.1 = k' := by rw [hq]; exact fun hh => hne hh.symm
        simp only [List.map_cons, if_pos hq]
        rw [List.find?_cons_of_neg _ (by simpa using fun hh => hne hh.symm),
          List.find?_cons_of_neg _ (by simpa using hq')]
        exact ih
      · simp only [List.map_cons, if_neg hq]
        by_cases hq' : q.1 = k'
        · rw [List.find?_cons_of_pos _ (by simpa using hq'),
            List.find?_cons_of_pos _ (by simpa using hq')]
        · rw [List.find?_cons_of_neg _ (by simpa using hq'),
            List.find?_cons_of_neg _ (by simpa using hq')]
          exact ih
  · rw [if_neg h]
    congr 1
    clear h
    induction m with
    | nil => simp [List.find?, Ne.symm hne]
    | cons q m ih =>
      by_cases hq' : q.1 = k'
      · rw [List.cons_append, List.find?_cons_of_pos _ (by simpa using hq'),
          List.find?_cons_of_pos _ (by simpa using hq')]
      · rw [List.cons_append, List.find?_cons_of_neg _ (by simpa using hq'),
          List.find?_cons_of_neg _ (by simpa using hq')]
        exact ih

theorem runQueue_lookup_preserve (ps : List SourceItem) :
    ∀ st j k, (∀ p ∈ ps, p.id ≠ k) →
      mapGet (runQueue render oracle total st j ps).results k = mapGet st.results k := by
  induction ps with
  | nil => intro st j k _; rfl
  | cons p ps ih =>
    intro st j k hk
    show mapGet (runQueue render oracle total (fillStep render oracle total st j p) (j + 1) ps).results k = _
    rw [ih _ _ _ (fun q hq => hk q (by simp [hq]))]
    rw [fillStep_results]
    exact mapGet_mapSet_ne _ _ (fun hh => hk p (by simp) hh.symm)

/-- Splitting the full run at queue position i: the full run equals the
prefix run, then the step for pair i, then the rest of the queue. -/
theorem run_full_split (items : List SourceItem) (store0 : Nat → List Note)
    (i : Nat) (hi : i < items.length) :
    runQueue render oracle items.length (initFillState store0) 0 items
      = runQueue render oracle items.length
          (fillStep render oracle items.length
            (runPrefix render oracle items store0 i) i (items.get ⟨i, hi⟩))
          (i + 1) (items.drop (i + 1)) := by
  have hlen : (items.take i).length = i := by
    rw [List.length_take]
    omega
  have hdrop : items.drop i = items.get ⟨i, hi⟩ :: items.drop (i + 1) := by
    rw [List.drop_eq_getElem_cons hi]
    simp [List.get_eq_getElem]
  have key : ∀ n, runQueue render oracle n (initFillState store0) 0 items
      = runQueue render oracle n
          (fillStep render oracle n
            (runQueue render oracle n (initFillState store0) 0 (items.take i)) i
            (items.get ⟨i, hi⟩))
          (i + 1) (items.drop (i + 1)) := by
    intro n
    conv_lhs => rw [show items = items.take i ++ items.drop i from
      (List.take_append_drop i items).symm]
    rw [runQueue_split, hlen, hdrop]
    simp only [Nat.zero_add]
    rfl
  exact key items.length

/-- The prefix run produces only events tagged below its length. -/
theorem runPrefix_events_bound (items : List SourceItem) (store0 : Nat → List Note)
    (i : Nat) (e : FillEvent) (k : Nat)
    (he : e ∈ (runPrefix render oracle items store0 i).events)
    (hk : evIdx e = some k) : k < i := by
  have := runQueue_events_bound render oracle items.length (items.take i)
    (initFillState store0) 0 e he
  rcases this with hmem | ⟨k', hk', h1, h2⟩ | hnone
  · simp [initFillState] at hmem
  · rw [hk] at hk'
    have : k = k' := by injection hk'
    subst this
    have : (items.take i).length ≤ i := by
      rw [List.length_take]
      omega
    omega
  · rw [hk] at hnone
    cases hnone

/-- In a run with at least one slot in the pool, the final results-map
entry for a pair's source (when source ids are pairwise distinct) is
exactly what that pair's own step wrote: cached text, extractor output,
or placeholder. -/
theorem runQueue_lookup_at (items : List SourceItem) (store0 : Nat → List Note)
    (hNodup : (items.map (fun p => p.id)).Nodup) (j : Nat) (hj : j < items.length) :
    mapGet (runQueue render oracle items.length (initFillState store0) 0 items).results
        (items.get ⟨j, hj⟩).id
      = some (stepOutcome render oracle (runPrefix render oracle items store0 j) j
          (items.get ⟨j, hj⟩)) := by
  rw [run_full_split render oracle items store0 j hj]
  have hrest : ∀ p ∈ items.drop (j + 1), p.id ≠ (items.get ⟨j, hj⟩).id := by
    intro p hp hid
    obtain ⟨k, hk, hkp⟩ := List.getElem_of_mem hp
    have hk' : j + 1 + k < items.length := by
      have := List.length_drop (j + 1) items
      omega
    have hpk : items.get ⟨j + 1 + k, hk'⟩ = p := by
      rw [← hkp]
      simp [List.get_eq_getElem, List.getElem_drop]
    have hmapj : (items.map (fun p => p.id)).get ⟨j, by simpa⟩ = (items.get ⟨j, hj⟩).id := by
      simp [List.get_eq_getElem]
    have hmapk : (items.map (fun p => p.id)).get ⟨j + 1 + k, by simpa⟩ = p.id := by
      simp [List.get_eq_getElem, ← hpk]
    have hget : (items.map (fun p => p.id)).get ⟨j, by simpa⟩
        = (items.map (fun p => p.id)).get ⟨j + 1 + k, by simpa⟩ := by
      rw [hmapj, hmapk, hid]
    have hfin := (List.Nodup.get_inj_iff hNodup).mp hget
    have hval : j = j + 1 + k := congrArg Fin.val hfin
    omega
  rw [runQueue_lookup_preserve render oracle items.length _ _ _ _ hrest]
  rw [fillStep_results]
  exact mapGet_mapSet_self _ _ _

theorem fillTables_eq_runQueue (items : List SourceItem) (c : Int)
    (store0 : Nat → List Note) (hc : 1 ≤ c) (hlen : 0 < items.length) :
    fillTablesInParallel render oracle items c store0
      = runQueue render oracle items.length (initFillState store0) 0 items := by
  unfold fillTablesInParallel
  rw [if_neg]
  intro h0
  rw [Int.toNat_eq_zero] at h0
  have h1 : (1 : Int) ≤ (items.length : Int) := by exact_mod_cast hlen
  have := le_min hc h1
  omega

end SchedulerLemmas

section SchedulerClaims

/-- Claim C10: on the empty pair list, fillTablesInParallel spawns zero
workers, resolves immediately with the empty results map, and never
invokes the progress callback, for every concurrency value. -/
theorem c10_empty_batch (render : Str → Str) (oracle : Nat → Except Str Str)
    (c : Int) (store0 : Nat → List Note) :
    fillTablesInParallel render oracle [] c store0 = initFillState store0
    ∧ (fillTablesInParallel render oracle [] c store0).results = []
    ∧ progressSeq (fillTablesInParallel render oracle [] c store0) = [] := by
  have h0 : (min c ((List.length ([] : List SourceItem) : Int))).toNat = 0 := by
    rw [Int.toNat_eq_zero]
    simp
  unfold fillTablesInParallel
  rw [if_pos h0]
  exact ⟨rfl, rfl, rfl⟩

/-- Claim C8, counterexample: with concurrency 0 and one pair, no worker
is spawned, so the progress callback receives the empty sequence rather
than the sequence 1 claimed for every run. -/
theorem c8_counterexample :
    progressSeq (fillTablesInParallel (fun s => s) (fun _ => Except.ok (str "t"))
        [⟨1, str "T", [], [], str "K"⟩] 0 (fun _ => [])) = []
    ∧ ([] : List (Nat × Nat)) ≠ [(1, 1)] := by
  exact ⟨by decide, by decide⟩

/-- Claim C8, amended: for every run with at least one worker slot
(concurrency at least 1), the progress callback receives exactly the
pairs (1, n), (2, n), ..., (n, n), in that order. -/
theorem c8_progress_monotone (render : Str → Str) (oracle : Nat → Except Str Str)
    (items : List SourceItem) (c : Int) (store0 : Nat → List Note) (hc : 1 ≤ c) :
    progressSeq (fillTablesInParallel render oracle items c store0)
      = (List.range items.length).map (fun k => (k + 1, items.length)) := by
  cases items with
  | nil =>
    have h0 : (min c ((List.length ([] : List SourceItem)) : Int)).toNat = 0 := by
      rw [Int.toNat_eq_zero]
      simp
    unfold fillTablesInParallel
    rw [if_pos h0]
    rfl
  | cons p ps =>
    rw [fillTables_eq_runQueue render oracle _ c store0 hc (by simp)]
    rw [runQueue_progress]
    simp only [initFillState, progressSeq, List.filterMap_nil, List.nil_append]
    apply List.map_congr_left
    intro k _
    simp only [Nat.zero_add]
    congr 1
    omega

/-- Claim C8, witness: a singleton batch with one worker reports exactly
the pair (1, 1). -/
theorem c8_progress_monotone_witness :
    progressSeq (fillTablesInParallel (fun s => s) (fun _ => Except.ok (str "t"))
        [⟨1, str "T", [], [], str "K"⟩] 1 (fun _ => [])) = [(1, 1)] := by
  have h := c8_progress_monotone (fun s => s) (fun _ => Except.ok (str "t"))
    [⟨1, str "T", [], [], str "K"⟩] 1 (fun _ => []) (by decide)
  simpa using h

/-- Claim C3: for a pair at queue position i in a run with at least one
worker, a cache hit records the cached text and never invokes the
extractor for that pair, while a cache miss invokes the extractor, passes
its result to saveTableNote, and records that result. -/
theorem c3_cache_short_circuit (render : Str → Str) (oracle : Nat → Except Str Str)
    (items : List SourceItem) (c : Int) (store0 : Nat → List Note) (i : Nat)
    (hc : 1 ≤ c) (hi : i < items.length) :
    (∀ t, findTableNote ((runPrefix render oracle items store0 i).store
        (items.get ⟨i, hi⟩).id) = some t →
      FillEvent.record i (items.get ⟨i, hi⟩).id t
          ∈ (fillTablesInParallel render oracle items c store0).events
        ∧ FillEvent.extract i ∉ (fillTablesInParallel render oracle items c store0).events)
    ∧ (∀ tbl, findTableNote ((runPrefix render oracle items store0 i).store
        (items.get ⟨i, hi⟩).id) = none → oracle i = Except.ok tbl →
      FillEvent.extract i ∈ (fillTablesInParallel render oracle items c store0).events
        ∧ FillEvent.save i tbl ∈ (fillTablesInParallel render oracle items c store0).events
        ∧ FillEvent.record i (items.get ⟨i, hi⟩).id tbl
            ∈ (fillTablesInParallel render oracle items c store0).events) := by
  have hfull : fillTablesInParallel render oracle items c store0
      = runQueue render oracle items.length
          (fillStep render oracle items.length
            (runPrefix render oracle items store0 i) i (items.get ⟨i, hi⟩))
          (i + 1) (items.drop (i + 1)) := by
    rw [fillTables_eq_runQueue render oracle items c store0 hc (by omega)]
    exact run_full_split render oracle items store0 i hi
  obtain ⟨tail, htail⟩ := runQueue_events_decomp render oracle items.length
    (items.drop (i + 1))
    (fillStep render oracle items.length (runPrefix render oracle items store0 i) i
      (items.get ⟨i, hi⟩)) (i + 1)
  rw [fillStep_events] at htail
  constructor
  · intro t hfind
    have hstep : stepEventsOf render oracle (runPrefix render oracle items store0 i) i
        (items.get ⟨i, hi⟩) items.length
        = [FillEvent.record i (items.get ⟨i, hi⟩).id t,
           FillEvent.progress ((runPrefix render oracle items store0 i).completed + 1)
             items.length] := by
      unfold stepEventsOf
      rw [hfind]
    constructor
    · rw [hfull, htail, hstep]
      simp
    · intro hmem
      rw [hfull] at hmem
      have hb := runQueue_events_bound render oracle items.length (items.drop (i + 1))
        _ (i + 1) _ hmem
      rcases hb with hmem2 | ⟨k, hk, hk1, _⟩ | hnone
      · rw [fillStep_events, hstep] at hmem2
        rcases List.mem_append.mp hmem2 with hmem3 | hmem3
        · have := runPrefix_events_bound render oracle items store0 i _ i hmem3 rfl
          omega
        · simp at hmem3
      · have hki : k = i := by
          have h2 : evIdx (FillEvent.extract i) = some i := rfl
          rw [h2] at hk
          injection hk with h3
          omega
        omega
      · have : evIdx (FillEvent.extract i) = some i := rfl
        rw [this] at hnone
        cases hnone
  · intro tbl hfind hok
    have hstep : stepEventsOf render oracle (runPrefix render oracle items store0 i) i
        (items.get ⟨i, hi⟩) items.length
        = [FillEvent.extract i, FillEvent.save i tbl,
           FillEvent.record i (items.get ⟨i, hi⟩).id tbl,
           FillEvent.progress ((runPrefix render oracle items store0 i).completed + 1)
             items.length] := by
      unfold stepEventsOf
      rw [hfind, hok]
    refine ⟨?_, ?_, ?_⟩ <;>
      (rw [hfull, htail, hstep]; simp)

/-- Claim C3, witness: in a two-pair batch whose first source has a
cached table note, the first pair records the cached text with no
extractor call, and the second pair (a miss) extracts, saves and records
the oracle output. -/
theorem c3_cache_short_circuit_witness :
    (FillEvent.record 0 1 (str "tbl")
        ∈ (fillTablesInParallel (fun s => s)
            (fun i => if i = 0 then Except.ok (str "u") else Except.ok (str "v"))
            [⟨1, str "T", [], [], str "K"⟩, ⟨2, str "U", [], [], str "L"⟩] 1
            (fun j => if j = 1 then [⟨[TABLE_NOTE_TAG], str "<div data-ai-table-raw>tbl</div>"⟩] else [])).events
      ∧ FillEvent.extract 0
          ∉ (fillTablesInParallel (fun s => s)
            (fun i => if i = 0 then Except.ok (str "u") else Except.ok (str "v"))
            [⟨1, str "T", [], [], str "K"⟩, ⟨2, str "U", [], [], str "L"⟩] 1
            (fun j => if j = 1 then [⟨[TABLE_NOTE_TAG], str "<div data-ai-table-raw>tbl</div>"⟩] else [])).events)
    ∧ (FillEvent.extract 1
        ∈ (fillTablesInParallel (fun s => s)
            (fun i => if i = 0 then Except.ok (str "u") else Except.ok (str "v"))
            [⟨1, str "T", [], [], str "K"⟩, ⟨2, str "U", [], [], str "L"⟩] 1
            (fun j => if j = 1 then [⟨[TABLE_NOTE_TAG], str "<div data-ai-table-raw>tbl</div>"⟩] else [])).events
      ∧ FillEvent.save 1 (str "v")
          ∈ (fillTablesInParallel (fun s => s)
            (fun i => if i = 0 then Except.ok (str "u") else Except.ok (str "v"))
            [⟨1, str "T", [], [], str "K"⟩, ⟨2, str "U", [], [], str "L"⟩] 1
            (fun j => if j = 1 then [⟨[TABLE_NOTE_TAG], str "<div data-ai-table-raw>tbl</div>"⟩] else [])).events
      ∧ FillEvent.record 1 2 (str "v")
          ∈ (fillTablesInParallel (fun s => s)
            (fun i => if i = 0 then Except.ok (str "u") else Except.ok (str "v"))
            [⟨1, str "T", [], [], str "K"⟩, ⟨2, str "U", [], [], str "L"⟩] 1
            (fun j => if j = 1 then [⟨[TABLE_NOTE_TAG], str "<div data-ai-table-raw>tbl</div>"⟩] else [])).events) := by
  constructor
  · exact (c3_cache_short_circuit (fun s => s)
      (fun i => if i = 0 then Except.ok (str "u") else Except.ok (str "v"))
      [⟨1, str "T", [], [], str "K"⟩, ⟨2, str "U", [], [], str "L"⟩] 1
      (fun j => if j = 1 then [⟨[TABLE_NOTE_TAG], str "<div data-ai-table-raw>tbl</div>"⟩] else [])
      0 (by decide) (by decide)).1 (str "tbl") (by decide)
  · exact (c3_cache_short_circuit (fun s => s)
      (fun i => if i = 0 then Except.ok (str "u") else Except.ok (str "v"))
      [⟨1, str "T", [], [], str "K"⟩, ⟨2, str "U", [], [], str "L"⟩] 1
      (fun j => if j = 1 then [⟨[TABLE_NOTE_TAG], str "<div data-ai-table-raw>tbl</div>"⟩] else [])
      1 (by decide) (by decide)).2 (str "v") (by decide) (by rfl)

/-- Claim C7, counterexample: with two pairs sharing a source (id 1) and
a third pair (id 2) that throws, the batch completes and isolates the
failure, but the first pair — which succeeded with the text of a leading
space followed by x — does not keep its real text in the final map: the
duplicate pair's cache hit overwrites it with the trimmed round-trip. -/
theorem c7_counterexample :
    mapGet (fillTablesInParallel (fun s => s)
        (fun i => if i = 0 then Except.ok (str " x")
          else if i = 2 then Except.error (str "boom") else Except.ok (str "y"))
        [⟨1, str "T", [], [], str "K"⟩, ⟨1, str "T", [], [], str "K"⟩,
          ⟨2, str "U", [], [], str "L"⟩] 1 (fun _ => [])).results 1 = some (str "x")
    ∧ str "x" ≠ str " x"
    ∧ mapGet (fillTablesInParallel (fun s => s)
        (fun i => if i = 0 then Except.ok (str " x")
          else if i = 2 then Except.error (str "boom") else Except.ok (str "y"))
        [⟨1, str "T", [], [], str "K"⟩, ⟨1, str "T", [], [], str "K"⟩,
          ⟨2, str "U", [], [], str "L"⟩] 1 (fun _ => [])).results 2
        = some (fillFailText (str "boom")) := by
  exact ⟨by decide, by decide, by decide⟩

/-- Claim C7, amended: when the pairs carry pairwise distinct source ids
and the pool has at least one worker, a pair whose processing throws gets
the placeholder embedding the error message, and every other pair that
succeeds (cache hit or successful extraction) keeps its own text in the
final results map. -/
theorem c7_placeholder_isolation (render : Str → Str) (oracle : Nat → Except Str Str)
    (items : List SourceItem) (c : Int) (store0 : Nat → List Note) (i : Nat) (msg : Str)
    (hc : 1 ≤ c) (hNodup : (items.map (fun p => p.id)).Nodup) (hi : i < items.length)
    (hmiss : findTableNote ((runPrefix render oracle items store0 i).store
      (items.get ⟨i, hi⟩).id) = none)
    (herr : oracle i = Except.error msg) :
    mapGet (fillTablesInParallel render oracle items c store0).results
        (items.get ⟨i, hi⟩).id = some (fillFailText msg)
    ∧ ∀ (j : Nat) (hj : j < items.length) (t : Str), j ≠ i →
        (findTableNote ((runPrefix render oracle items store0 j).store
            (items.get ⟨j, hj⟩).id) = some t
          ∨ (findTableNote ((runPrefix render oracle items store0 j).store
              (items.get ⟨j, hj⟩).id) = none ∧ oracle j = Except.ok t)) →
        mapGet (fillTablesInParallel render oracle items c store0).results
          (items.get ⟨j, hj⟩).id = some t := by
  rw [fillTables_eq_runQueue render oracle items c store0 hc (by omega)]
  constructor
  · rw [runQueue_lookup_at render oracle items store0 hNodup i hi]
    unfold stepOutcome
    rw [hmiss, herr]
  · intro j hj t _ hsucc
    rw [runQueue_lookup_at render oracle items store0 hNodup j hj]
    unfold stepOutcome
    rcases hsucc with hhit | ⟨hmiss2, hok⟩
    · rw [hhit]
    · rw [hmiss2, hok]

/-- Claim C7, witness: in a two-pair batch where the second pair throws,
the placeholder embeds the error message and the first pair keeps its
extracted table. -/
theorem c7_placeholder_isolation_witness :
    mapGet (fillTablesInParallel (fun s => s)
        (fun i => if i = 0 then Except.ok (str "ta") else Except.error (str "boom"))
        [⟨1, str "T", [], [], str "K"⟩, ⟨2, str "U", [], [], str "L"⟩] 1
        (fun _ => [])).results 2 = some (fillFailText (str "boom"))
    ∧ mapGet (fillTablesInParallel (fun s => s)
        (fun i => if i = 0 then Except.ok (str "ta") else Except.error (str "boom"))
        [⟨1, str "T", [], [], str "K"⟩, ⟨2, str "U", [], [], str "L"⟩] 1
        (fun _ => [])).results 1 = some (str "ta") := by
  have h := c7_placeholder_isolation (fun s => s)
    (fun i => if i = 0 then Except.ok (str "ta") else Except.error (str "boom"))
    [⟨1, str "T", [], [], str "K"⟩, ⟨2, str "U", [], [], str "L"⟩] 1
    (fun _ => []) 1 (str "boom") (by decide) (by decide) (by decide)
    (by decide) (by rfl)
  exact ⟨h.1, h.2 0 (by decide) (str "ta") (by decide) (Or.inr ⟨by decide, by rfl⟩)⟩

end SchedulerClaims

section CacheClaims

/-- Claim C1, counterexample: storing the markdown text consisting of the
spelled-out lt entity followed by b and reading it back yields the left
angle bracket followed by b — the sequential entity unescape of
findTableNote is not the inverse of the escape of saveTableNote, so the
round-trip is not the identity on every markdown text. -/
theorem c1_counterexample :
    findTableNote (saveTableNote (fun s => s) (str "T") [] (str "&lt;b")).1
      = some (str "<b")
    ∧ str "<b" ≠ str "&lt;b" := by
  exact ⟨by decide, by decide⟩

/-- Claim C1, amended: for a source none of whose notes carries the table
tag, and a trimmed, nonempty markdown text that does not spell out the
lt, gt or quot entities, storing via saveTableNote and reading back via
findTableNote returns exactly the stored text (under the modelling
hypotheses that the item title and the external renderer's output for
this text contain no left angle bracket, which keeps the hidden-region
regex anchored on the hidden block). -/
theorem c1_verbatim_roundtrip (render : Str → Str) (title : Str)
    (notes : List Note) (t : Str)
    (hnotag : ∀ n ∈ notes, TABLE_NOTE_TAG ∉ n.tags)
    (htrim : trimChars t = t) (hne : t ≠ [])
    (h1 : occursSub ltEnt t = false) (h2 : occursSub gtEnt t = false)
    (h3 : occursSub quotEnt t = false)
    (htitle : ∀ c ∈ title, ¬ c = '<') (hrender : ∀ c ∈ render t, ¬ c = '<') :
    findTableNote (saveTableNote render title notes t).1 = some t :=
  saveTableNote_roundtrip render title notes t hnotag htrim hne h1 h2 h3 htitle hrender

/-- Claim C1, witness: a table-syntax text containing an ampersand
round-trips verbatim through the cache. -/
theorem c1_verbatim_roundtrip_witness :
    findTableNote (saveTableNote (fun s => s) (str "T") [] (str "| a & b |")).1
      = some (str "| a & b |") :=
  c1_verbatim_roundtrip (fun s => s) (str "T") [] (str "| a & b |")
    (by simp) (by decide) (by decide) (by decide) (by decide) (by decide)
    (by decide) (by decide)

/-- Claim C2, counterexample: storing a single-space text leaves a record
findTableNote cannot read back (the capture trims to nothing), so a
second saveTableNote with a different text creates a second record
instead of returning the existing one, and findTableNote afterwards
returns neither text. -/
theorem c2_counterexample :
    (saveTableNote (fun s => s) (str "T") [] (str " ")).1.length = 1
    ∧ (saveTableNote (fun s => s) (str "T")
        (saveTableNote (fun s => s) (str "T") [] (str " ")).1 (str "x")).1.length = 2
    ∧ findTableNote (saveTableNote (fun s => s) (str "T")
        (saveTableNote (fun s => s) (str "T") [] (str " ")).1 (str "x")).1 = none := by
  exact ⟨by decide, by decide, by decide⟩

/-- Claim C2, amended: provided findTableNote succeeds on the source
after the first call, a second saveTableNote with any text adds no
record, returns the first tagged note, and findTableNote still returns
the first call's text. -/
theorem c2_first_store_wins (render : Str → Str) (title t2 : Str)
    (notes : List Note) (s : Str) (hfind : findTableNote notes = some s) :
    (saveTableNote render title notes t2).1 = notes
    ∧ findTableNote (saveTableNote render title notes t2).1 = some s
    ∧ ∃ n, firstTagged notes = some n ∧ (saveTableNote render title notes t2).2 = n :=
  saveTableNote_existing render title t2 hfind

/-- Claim C2, witness: after storing x, a second store of y changes
nothing and findTableNote still returns x. -/
theorem c2_first_store_wins_witness :
    (saveTableNote (fun s => s) (str "T")
        (saveTableNote (fun s => s) (str "T") [] (str "x")).1 (str "y")).1
      = (saveTableNote (fun s => s) (str "T") [] (str "x")).1
    ∧ findTableNote (saveTableNote (fun s => s) (str "T")
        (saveTableNote (fun s => s) (str "T") [] (str "x")).1 (str "y")).1
      = some (str "x") := by
  have h := c2_first_store_wins (fun s => s) (str "T") (str "y")
    (saveTableNote (fun s => s) (str "T") [] (str "x")).1 (str "x") (by decide)
  exact ⟨h.1, h.2.1⟩

end CacheClaims

section AggregationLemmas

theorem aggregateGo_eq (items : List SourceItem) (rs : List (Nat × Str))
    (hd : ∀ q ∈ rs, (splitTableHeaderAndRows q.2).2.1 ≠ []) :
    ∀ index gh parts, aggregateGo items rs index gh parts
      = ((if gh = [] then firstHeaderOf rs else gh),
         parts.reverse ++ claimBlocks items rs index) := by
  induction rs with
  | nil =>
    intro index gh parts
    unfold aggregateGo firstHeaderOf
    by_cases hgh : gh = []
    · simp [hgh, claimBlocks, List.find?]
    · simp [hgh, claimBlocks]
  | cons q rs ih =>
    intro index gh parts
    obtain ⟨itemId, tc⟩ := q
    have hq : (splitTableHeaderAndRows tc).2.1 ≠ [] := hd (itemId, tc) (by simp)
    have hrs : ∀ q ∈ rs, (splitTableHeaderAndRows q.2).2.1 ≠ [] :=
      fun q hqq => hd q (by simp [hqq])
    have hstep : aggregateGo items ((itemId, tc) :: rs) index gh parts
        = aggregateGo items rs (index + 1)
            (if gh = [] ∧ (splitTableHeaderAndRows tc).1 ≠ []
              then (splitTableHeaderAndRows tc).1 else gh)
            ((entryLabel items index itemId
              ++ (if (splitTableHeaderAndRows tc).2.2 ≠ []
                  then '\n' :: (splitTableHeaderAndRows tc).2.2 else [])
              ++ (if (splitTableHeaderAndRows tc).2.1 ≠ []
                  then '\n' :: (splitTableHeaderAndRows tc).2.1 else '\n' :: tc)) :: parts) :=
      rfl
    rw [hstep, ih hrs]
    have hentry : (entryLabel items index itemId
        ++ (if (splitTableHeaderAndRows tc).2.2 ≠ []
            then '\n' :: (splitTableHeaderAndRows tc).2.2 else [])
        ++ (if (splitTableHeaderAndRows tc).2.1 ≠ []
            then '\n' :: (splitTableHeaderAndRows tc).2.1 else '\n' :: tc))
        = claimBlock items index itemId tc := by
      unfold claimBlock
      rw [if_pos hq]
    simp only [Prod.mk.injEq]
    constructor
    · by_cases hgh : gh = []
      · subst hgh
        by_cases hh : (splitTableHeaderAndRows tc).1 = []
        · have hfind : List.find? (fun q => (splitTableHeaderAndRows q.2).1 ≠ [])
              ((itemId, tc) :: rs)
              = List.find? (fun q => (splitTableHeaderAndRows q.2).1 ≠ []) rs :=
            List.find?_cons_of_neg _ (by simpa using hh)
          simp only [firstHeaderOf, hfind, hh]
          simp
        · have hfind : List.find? (fun q => (splitTableHeaderAndRows q.2).1 ≠ [])
              ((itemId, tc) :: rs) = some (itemId, tc) :=
            List.find?_cons_of_pos _ (by simpa using hh)
          simp only [firstHeaderOf, hfind, hh]
          simp [hh]
      · simp [hgh]
    · rw [hentry]
      show (claimBlock items index itemId tc :: parts).reverse
          ++ claimBlocks items rs (index + 1) = _
      rw [List.reverse_cons, List.append_assoc]
      rfl

end AggregationLemmas

section AggregationClaims

/-- Claim C4, counterexample: when a subsequent table has a header but no
data rows, the defensive fallback emits its raw text — header included —
so the global header appears twice in the output, not once. -/
theorem c4_counterexample :
    countOccur (str "|h|")
      (aggregateTableContents [(1, str "|h|\n|---|\n|d|"), (2, str "|h|\n|---|")] []) = 2
    ∧ (2 : Nat) ≠ 1 := by
  exact ⟨by decide, by decide⟩

/-- Claim C4, amended: provided every table's line scan yields nonempty
data rows, the first nonempty header in iteration order is the single
global header emitted once in the preamble, the headers of all tables
are omitted from the per-source blocks, and the blocks appear in the
insertion order of the results map. -/
theorem c4_header_dedup (tableResults : List (Nat × Str)) (items : List SourceItem)
    (hd : ∀ q ∈ tableResults, (splitTableHeaderAndRows q.2).2.1 ≠ []) :
    aggregateTableContents tableResults items = aggregateClaimed tableResults items := by
  unfold aggregateTableContents aggregateClaimed
  rw [aggregateGo_eq items tableResults hd 1 [] []]
  simp

/-- Claim C4, witness: three tables sharing one header with distinct data
rows aggregate into the claim-side form, with exactly one occurrence of
the header text. -/
theorem c4_header_dedup_witness :
    aggregateTableContents
        [(1, str "|h|\n|---|\n|a|"), (2, str "|h|\n|---|\n|b|"),
          (3, str "|h|\n|---|\n|c|")] []
      = aggregateClaimed
        [(1, str "|h|\n|---|\n|a|"), (2, str "|h|\n|---|\n|b|"),
          (3, str "|h|\n|---|\n|c|")] []
    ∧ countOccur (str "|h|")
        (aggregateTableContents
          [(1, str "|h|\n|---|\n|a|"), (2, str "|h|\n|---|\n|b|"),
            (3, str "|h|\n|---|\n|c|")] []) = 1 := by
  refine ⟨c4_header_dedup _ _ (by decide), by decide⟩

end AggregationClaims

section IndexLemmas

theorem find_append_gen (m m' : List (Str × CiteVal)) (p : Str × CiteVal → Bool) :
    (m ++ m').find? p
      = match m.find? p with
        | some x => some x
        | none => m'.find? p := by
  induction m with
  | nil => simp
  | cons q m ih =>
    by_cases hq : p q = true
    · rw [List.cons_append, List.find?_cons_of_pos _ hq, List.find?_cons_of_pos _ hq]
    · rw [List.cons_append, List.find?_cons_of_neg _ (by simpa using hq),
        List.find?_cons_of_neg _ (by simpa using hq), ih]

theorem authorYearGet_insAbsent (m : List (Str × CiteVal)) (e : Str × CiteVal) (k : Str) :
    authorYearGet (insAbsent m e) k
      = match authorYearGet m k with
        | some v => some v
        | none => if e.1 = k then some e.2 else none := by
  unfold insAbsent
  by_cases hfind : (m.find? (fun q => q.1 = e.1)).isSome = true
  · rw [if_pos hfind]
    cases hget : authorYearGet m k with
    | some v => simp
    | none =>
      simp only
      by_cases hek : e.1 = k
      · exfalso
        unfold authorYearGet at hget
        rw [hek] at hfind
        rcases Option.isSome_iff_exists.mp hfind with ⟨x, hx⟩
        rw [hx] at hget
        simp at hget
      · rw [if_neg hek]
  · rw [if_neg hfind]
    unfold authorYearGet
    rw [find_append_gen]
    cases hget : m.find? (fun q => q.1 = k) with
    | some x => simp
    | none =>
      simp only
      by_cases hek : e.1 = k
      · rw [List.find?_cons_of_pos _ (by simpa using hek)]
        simp [hek]
      · rw [List.find?_cons_of_neg _ (by simpa using hek)]
        simp [hek]

theorem authorYearGet_foldl_insAbsent (regs : List (Str × CiteVal)) :
    ∀ m k, authorYearGet (regs.foldl insAbsent m) k
      = match authorYearGet m k with
        | some v => some v
        | none => (regs.find? (fun q => q.1 = k)).map (fun q => q.2) := by
  induction regs with
  | nil =>
    intro m k
    cases hget : authorYearGet m k <;> simp [hget]
  | cons e regs ih =>
    intro m k
    rw [List.foldl_cons, ih, authorYearGet_insAbsent]
    cases hget : authorYearGet m k with
    | some v => simp
    | none =>
      simp only
      by_cases hek : e.1 = k
      · rw [if_pos hek, List.find?_cons_of_pos _ (by simpa using hek)]
        simp
      · rw [if_neg hek, List.find?_cons_of_neg _ (by simpa using hek)]

theorem mkIndexCreators_eq (item : SourceItem) (year uri : Str) :
    ∀ m, mkIndexCreators item year uri m
      = (regSeqCreators item year uri).foldl insAbsent m := by
  unfold mkIndexCreators regSeqCreators
  generalize item.creators = cs
  induction cs with
  | nil => intro m; rfl
  | cons c cs ih =>
    intro m
    rw [List.foldl_cons, List.filterMap_cons]
    by_cases hsn : creatorSurname c = []
    · simp only [hsn, if_pos rfl]
      rw [ih]
      simp [hsn]
    · simp only [if_neg hsn]
      rw [ih]
      have : insAbsent m (lowerStr (creatorSurname c) ++ '|' :: year,
          ⟨item, item.zkey, uri⟩)
          = if (m.find? (fun q => q.1 = lowerStr (creatorSurname c) ++ '|' :: year)).isSome
            then m
            else m ++ [(lowerStr (creatorSurname c) ++ '|' :: year, ⟨item, item.zkey, uri⟩)] :=
        rfl
      rw [List.foldl_cons]
      congr 1

theorem mkCitationIndex_eq_aux (items : List SourceItem) :
    ∀ m, items.foldl (fun m item =>
        match firstYear item.date with
        | none => m
        | some year =>
            if item.creators = [] then m
            else mkIndexCreators item year (selectUri item.zkey) m) m
      = (regSeq items).foldl insAbsent m := by
  induction items with
  | nil => intro m; rfl
  | cons item rest ih =>
    intro m
    rw [List.foldl_cons]
    show _ = ((match firstYear item.date with
       | none => []
       | some year =>
           if item.creators = [] then []
           else regSeqCreators item year (selectUri item.zkey)) ++ regSeq rest).foldl insAbsent m
    rw [List.foldl_append]
    cases hy : firstYear item.date with
    | none => simp only; exact ih m
    | some year =>
      simp only
      by_cases hc : item.creators = []
      · rw [if_pos hc, if_pos hc]
        exact ih m
      · rw [if_neg hc, if_neg hc, ih, mkIndexCreators_eq]

theorem mkCitationIndex_eq (items : List SourceItem) :
    mkCitationIndex items = (regSeq items).foldl insAbsent [] :=
  mkCitationIndex_eq_aux items []

end IndexLemmas

section PatternALemmas

theorem dropWhile_len_le (p : Char → Bool) : ∀ l : Str, (l.dropWhile p).length ≤ l.length := by
  intro l
  induction l with
  | nil => simp [List.dropWhile]
  | cons c cs ih =>
    simp only [List.dropWhile]
    cases p c
    · simp
    · simp only [List.length_cons]
      omega

theorem matchAfterComma_len {cs t after : Str} (h : matchAfterComma cs = some (t, after)) :
    after.length ≤ cs.length := by
  unfold matchAfterComma at h
  split at h
  case _ rest =>
    have hdw : (rest.dropWhile isWs).length ≤ rest.length := dropWhile_len_le isWs rest
    split at h
    case _ d1 d2 d3 d4 rest3 heq =>
      split at h
      case isTrue =>
        have hr3 : rest3.length + 4 = (rest.dropWhile isWs).length := by
          rw [heq]
          simp
        split at h
        · injection h with h1
          injection h1 with h1 h2
          subst h2
          simp only [List.length_cons] at *
          omega
        · split at h
          · injection h with h1
            injection h1 with h1 h2
            subst h2
            simp only [List.length_cons] at *
            omega
          · cases h
        · cases h
      case isFalse => cases h
    case _ => cases h
  case _ => cases h

theorem tryMatchAExt_zero (accX rest : Str) :
    tryMatchAExt 0 accX rest =
      match matchAfterComma rest with
      | some (tailInner, after) => some (accX ++ tailInner, after)
      | none => none := rfl

theorem tryMatchAExt_succ (g : Nat) (accX rest : Str) :
    tryMatchAExt (g + 1) accX rest =
      match matchAfterComma rest with
      | some (tailInner, after) => some (accX ++ tailInner, after)
      | none =>
          match rest with
          | [] => none
          | c :: rest2 =>
              if isParen c then none
              else tryMatchAExt g (accX ++ [c]) rest2 := rfl

theorem tryMatchAExt_len :
    ∀ (g : Nat) (accX rest inner after : Str),
      tryMatchAExt g accX rest = some (inner, after) → after.length ≤ rest.length := by
  intro g
  induction g with
  | zero =>
    intro accX rest inner after h
    rw [tryMatchAExt_zero] at h
    split at h
    · rename_i t aft heq
      injection h with h1
      injection h1 with h1 h2
      subst h2
      exact matchAfterComma_len heq
    · cases h
  | succ g ih =>
    intro accX rest inner after h
    rw [tryMatchAExt_succ] at h
    split at h
    · rename_i t aft heq
      injection h with h1
      injection h1 with h1 h2
      subst h2
      exact matchAfterComma_len heq
    · rename_i heq
      split at h
      · cases h
      · rename_i c rest2
        split at h
        · cases h
        · have := ih (accX ++ [c]) rest2 inner after h
          simp only [List.length_cons]
          omega

theorem tryMatchA_len {cs inner after : Str} (h : tryMatchA cs = some (inner, after)) :
    after.length ≤ cs.length := by
  unfold tryMatchA at h
  split at h
  case _ c1 c2 rest =>
    split at h
    · cases h
    · have := tryMatchAExt_len 78 [c1, c2] rest inner after h
      simp only [List.length_cons]
      omega
  case _ => cases h

theorem processAF_congr (idx : List (Str × CiteVal)) :
    ∀ f g s, s.length ≤ f → s.length ≤ g → processAF idx f s = processAF idx g s := by
  intro f
  induction f with
  | zero =>
    intro g s hf _
    have : s = [] := List.eq_nil_of_length_eq_zero (Nat.le_zero.mp hf)
    subst this
    cases g <;> rfl
  | succ f ih =>
    intro g s hf hg
    cases s with
    | nil => cases g <;> rfl
    | cons c cs =>
      cases g with
      | zero => simp at hg
      | succ g =>
        simp only [processAF]
        by_cases hc : c = '('
        · simp only [if_pos hc]
          cases hm : tryMatchA cs with
          | some q =>
            obtain ⟨inner, rest⟩ := q
            dsimp only
            have hrest := tryMatchA_len hm
            simp only [List.length_cons] at hf hg
            rw [ih g rest (by omega) (by omega)]
          | none =>
            dsimp only
            simp only [List.length_cons] at hf hg
            rw [ih g cs (by omega) (by omega)]
        · simp only [if_neg hc]
          simp only [List.length_cons] at hf hg
          rw [ih g cs (by omega) (by omega)]

theorem processA_cons_ne (idx : List (Str × CiteVal)) {c : Char} (cs : Str)
    (hc : c ≠ '(') : processA idx (c :: cs) = c :: processA idx cs := by
  unfold processA
  simp only [List.length_cons, processAF, if_neg hc]

theorem processA_cons_match (idx : List (Str × CiteVal)) {cs inner rest : Str}
    (hm : tryMatchA cs = some (inner, rest)) :
    processA idx ('(' :: cs) = parenRepl idx inner ++ processA idx rest := by
  show processAF idx ('(' :: cs).length ('(' :: cs) = parenRepl idx inner ++ processAF idx rest.length rest
  simp only [List.length_cons, processAF, if_pos rfl, hm, if_true]
  congr 1
  exact processAF_congr idx cs.length rest.length rest (tryMatchA_len hm) (le_refl _)

theorem processA_skip (idx : List (Str × CiteVal)) {a : Str} (X : Str)
    (ha : ∀ c ∈ a, ¬ c = '(') :
    processA idx (a ++ X) = a ++ processA idx X := by
  induction a with
  | nil => rfl
  | cons c a ih =>
    rw [List.cons_append, processA_cons_ne idx _ (ha c (by simp)),
      ih (fun d hd => ha d (by simp [hd]))]
    rfl

end PatternALemmas

section MarkerLemmas

theorem takeWhile_all_append (p : Char → Bool) (ds : Str) (x : Char) (b : Str)
    (hds : ∀ c ∈ ds, p c = true) (hx : p x = false) :
    (ds ++ x :: b).takeWhile p = ds ∧ (ds ++ x :: b).dropWhile p = x :: b := by
  induction ds with
  | nil => simp [List.takeWhile, List.dropWhile, hx]
  | cons c cs ih =>
    have hc : p c = true := hds c (by simp)
    have ih2 := ih (fun d hd => hds d (by simp [hd]))
    simp [List.takeWhile, List.dropWhile, hc, ih2.1, ih2.2]

theorem matchMarker_shape (ds b : Str) (hne : ds ≠ []) (hds : ∀ c ∈ ds, c.isDigit = true) :
    matchMarker (str "itemId:" ++ (ds ++ ']' :: b)) = some b := by
  have h7 : List.drop 7 (str "itemId:" ++ (ds ++ ']' :: b)) = ds ++ ']' :: b := by
    rw [show (7 : Nat) = (str "itemId:").length from rfl]
    exact List.drop_left _ _
  have htw := takeWhile_all_append Char.isDigit ds ']' b hds (by decide)
  unfold matchMarker
  rw [if_pos (isPre_append_self (str "itemId:") (ds ++ ']' :: b)), h7, htw.1, htw.2,
    if_pos hne]
  rfl

theorem matchMarker_len {cs rest : Str} (h : matchMarker cs = some rest) :
    rest.length ≤ cs.length := by
  unfold matchMarker at h
  split at h
  · split at h
    · split at h
      · rename_i r heq
        injection h with h1
        subst h1
        have h2 : ((List.drop 7 cs).dropWhile Char.isDigit).length ≤ (List.drop 7 cs).length :=
          dropWhile_len_le _ _
        rw [heq] at h2
        simp only [List.length_cons, List.length_drop] at h2
        omega
      · cases h
    · cases h
  · cases h

theorem cleanupF_congr : ∀ f g s, s.length ≤ f → s.length ≤ g → cleanupF f s = cleanupF g s := by
  intro f
  induction f with
  | zero =>
    intro g s hf _
    have : s = [] := List.eq_nil_of_length_eq_zero (Nat.le_zero.mp hf)
    subst this
    cases g <;> rfl
  | succ f ih =>
    intro g s hf hg
    cases s with
    | nil => cases g <;> rfl
    | cons c cs =>
      cases g with
      | zero => simp at hg
      | succ g =>
        simp only [cleanupF]
        by_cases hc : c = '['
        · simp only [if_pos hc]
          cases hm : matchMarker cs with
          | some rest =>
            dsimp only
            have := matchMarker_len hm
            simp only [List.length_cons] at hf hg
            exact ih g rest (by omega) (by omega)
          | none =>
            dsimp only
            simp only [List.length_cons] at hf hg
            rw [ih g cs (by omega) (by omega)]
        · simp only [if_neg hc]
          simp only [List.length_cons] at hf hg
          rw [ih g cs (by omega) (by omega)]

theorem cleanup_cons_ne {c : Char} (cs : Str) (hc : c ≠ '[') :
    cleanupMarkers (c :: cs) = c :: cleanupMarkers cs := by
  show cleanupF (cs.length + 1) (c :: cs) = c :: cleanupF cs.length cs
  simp only [cleanupF, if_neg hc]

theorem cleanup_marker_head {cs rest : Str} (hm : matchMarker cs = some rest) :
    cleanupMarkers ('[' :: cs) = cleanupMarkers rest := by
  show cleanupF (cs.length + 1) ('[' :: cs) = cleanupF rest.length rest
  simp only [cleanupF, if_pos rfl, hm, if_true]
  exact cleanupF_congr cs.length rest.length rest (matchMarker_len hm) (le_refl _)

theorem cleanup_skip {a : Str} (X : Str) (ha : ∀ c ∈ a, ¬ c = '[') :
    cleanupMarkers (a ++ X) = a ++ cleanupMarkers X := by
  induction a with
  | nil => rfl
  | cons c a ih =>
    rw [List.cons_append, cleanup_cons_ne _ (ha c (by simp)),
      ih (fun d hd => ha d (by simp [hd]))]
    rfl

end MarkerLemmas

section CitationClaims

/-- Claim C6: while building the surname-pipe-year index, the first
registration for a key is never overwritten — the index entry for any
key equals the value of the first (source, creator) registration for it
in source-then-creator order. -/
theorem c6_first_seen_wins (items : List SourceItem) (k : Str) :
    authorYearGet (mkCitationIndex items) k
      = ((regSeq items).find? (fun q => q.1 = k)).map (fun q => q.2) := by
  rw [mkCitationIndex_eq]
  have h := authorYearGet_foldl_insAbsent (regSeq items) [] k
  simpa [authorYearGet] using h

/-- Claim C5: in the parenthetical pass, the leftmost parenthesized run
matching the lazy 2-to-80-character, comma, four-digit-year pattern is
rewritten into a link wrapping the original parenthetical text when the
surname-year lookup hits the index, and left character-for-character
unchanged when the lookup misses; the scan continues after the closing
parenthesis in both cases. -/
theorem c5_parenthetical (idx : List (Str × CiteVal)) (a inner b : Str)
    (ha : ∀ c ∈ a, ¬ c = '(')
    (hm : tryMatchA (inner ++ ')' :: b) = some (inner, b)) :
    (∀ v, parenLookup idx inner = some v →
        processA idx (a ++ ('(' :: (inner ++ ')' :: b)))
          = a ++ ((str "[(" ++ inner ++ str ")](" ++ v.uri ++ [')']) ++ processA idx b))
    ∧ (parenLookup idx inner = none →
        processA idx (a ++ ('(' :: (inner ++ ')' :: b)))
          = a ++ ('(' :: (inner ++ ')' :: processA idx b))) := by
  have hmain : processA idx (a ++ ('(' :: (inner ++ ')' :: b)))
      = a ++ (parenRepl idx inner ++ processA idx b) := by
    rw [processA_skip idx _ ha, processA_cons_match idx hm]
  constructor
  · intro v hv
    have hrepl : parenRepl idx inner = str "[(" ++ inner ++ str ")](" ++ v.uri ++ [')'] := by
      unfold parenRepl
      rw [hv]
    rw [hmain, hrepl]
  · intro hv
    have hrepl : parenRepl idx inner = '(' :: inner ++ [')'] := by
      unfold parenRepl
      rw [hv]
    rw [hmain, hrepl]
    simp only [List.cons_append, List.append_assoc, List.singleton_append, List.nil_append]

theorem c5_parenthetical_witness :
    processA (mkCitationIndex [⟨1, str "T", [⟨str "Nicoleau", []⟩], str "2014-05", str "KEY1"⟩])
        (str "as shown " ++ ('(' :: (str "Nicoleau, 2014" ++ ')' :: [])))
      = str "as shown "
          ++ ((str "[(" ++ str "Nicoleau, 2014" ++ str ")]("
                ++ str "zotero://select/library/items/KEY1" ++ [')'])
              ++ processA (mkCitationIndex
                    [⟨1, str "T", [⟨str "Nicoleau", []⟩], str "2014-05", str "KEY1"⟩]) [])
    ∧ processA (mkCitationIndex [⟨1, str "T", [⟨str "Nicoleau", []⟩], str "2014-05", str "KEY1"⟩])
        ([] ++ ('(' :: (str "Smith, 1999" ++ ')' :: [])))
      = [] ++ ('(' :: (str "Smith, 1999"
          ++ ')' :: processA (mkCitationIndex
                [⟨1, str "T", [⟨str "Nicoleau", []⟩], str "2014-05", str "KEY1"⟩]) [])) := by
  constructor
  · exact (c5_parenthetical _ (str "as shown ") (str "Nicoleau, 2014") []
      (by decide) (by decide)).1
      ⟨⟨1, str "T", [⟨str "Nicoleau", []⟩], str "2014-05", str "KEY1"⟩, str "KEY1",
        str "zotero://select/library/items/KEY1"⟩ (by decide)
  · exact (c5_parenthetical _ [] (str "Smith, 1999") []
      (by simp) (by decide)).2 (by decide)

/-- Claim C9 counterexample: with an empty source set the citation index
is empty, postProcessCitations returns the prose unchanged, and the
bracketed numeric marker survives in the output. -/
theorem c9_counterexample :
    postProcessCitations [] (str "[itemId:3]") = str "[itemId:3]"
      ∧ hasMarker (str "[itemId:3]") = true :=
  ⟨rfl, by decide⟩

/-- Claim C9 (amended): when the citation index is nonempty the cleanup
pass runs, and a leftover bracketed numeric marker is removed entirely:
if the text after the two citation passes is a prefix without opening
brackets, then a well-formed marker, then a tail, the pipeline output is
the prefix followed by the cleaned-up tail.  The original claim fails in
the degenerate empty-index case: the function returns early and markers
survive (see the counterexample). -/
theorem c9_marker_cleanup (items : List SourceItem) (content a ds b : Str)
    (hidx : ¬ mkCitationIndex items = [])
    (hpipe : processB (mkCitationIndex items) (processA (mkCitationIndex items) content)
        = a ++ '[' :: (str "itemId:" ++ (ds ++ ']' :: b)))
    (ha : ∀ c ∈ a, ¬ c = '[') (hne : ds ≠ []) (hds : ∀ c ∈ ds, c.isDigit = true) :
    postProcessCitations items content = a ++ cleanupMarkers b := by
  show (if mkCitationIndex items = [] then content
        else cleanupMarkers (processB (mkCitationIndex items)
          (processA (mkCitationIndex items) content)))
      = a ++ cleanupMarkers b
  rw [if_neg hidx, hpipe, cleanup_skip _ ha,
    cleanup_marker_head (matchMarker_shape ds b hne hds)]

theorem c9_marker_cleanup_witness :
    postProcessCitations [⟨1, str "T", [⟨str "Doe", []⟩], str "2020", str "KD"⟩]
        (str "hello [itemId:2] world")
      = str "hello " ++ cleanupMarkers (str " world") :=
  c9_marker_cleanup [⟨1, str "T", [⟨str "Doe", []⟩], str "2020", str "KD"⟩]
    (str "hello [itemId:2] world") (str "hello ") (str "2") (str " world")
    (by decide) (by decide) (by decide) (by decide) (by decide)

end CitationClaims

end AIButler
